import Mathlib

/-!
Verification of the Huffman codec in src/huffman.py.

The embedding below translates the two code-relevant classes of the source:

* class Node(namedtuple("Node", ["char", "freq", "left", "right"])) with
  __lt__ comparing freq only.  Leaves are built as Node(ch, fr, None, None),
  merged nodes as Node(None, f, left, right), so the reachable values form a
  tagged variant: a leaf carries a character and a frequency, an internal
  node carries a frequency and two children.

* class HuffmanCoding with methods build_tree, generate_codes, encode,
  decode, and the instance dictionaries self.codes / self.reverse_codes.

Python strings are modelled as List Char, Python dicts (only ever read via
single-key lookup) as association lists where a write shadows older entries
(List.lookup finds the most recent write).  Python exceptions that the
modelled code can actually raise are the constructors of PyErr; a raised
exception is an Except.error value.

The heap in build_tree is the CPython heapq module; heapify, heappush,
heappop, _siftup and _siftdown are transcribed operation by operation
(array writes become List.set, reads become List.getD).
-/

namespace Huffman

/-- Python exceptions reachable from the embedded code: IndexError
(heap[0] / heap.pop() on an empty list), KeyError (self.codes[ch] miss),
AttributeError (node.char when node is None, i.e. stepping off a leaf in
decode). -/
inductive PyErr where
  | indexError
  | keyError
  | attributeError
deriving DecidableEq, Repr

/-- The Node namedtuple of the source, restricted to its reachable shapes:
Node(ch, fr, None, None) is a leaf, Node(None, f, l, r) a merged internal
node. -/
inductive Node where
  | leaf (char : Char) (freq : Nat)
  | internal (freq : Nat) (left : Node) (right : Node)
deriving DecidableEq, Repr, Inhabited

/-- The freq field of a Node. -/
def Node.freq : Node → Nat
  | .leaf _ f => f
  | .internal f _ _ => f

/-! ### The heapq module (CPython _heapq pure-python reference code),
specialised to lists of Node, whose __lt__ compares freq. -/

/-- heapq._siftdown(heap, startpos, pos) after reading newitem = heap[pos]:
while pos > startpos, compare newitem with the parent, move the parent down
while newitem is strictly smaller, finally store newitem.  The while loop
is bounded by an explicit iteration budget (the position strictly
decreases, so any budget ≥ pos is exact); the budget-0 branch coincides
with the loop-exit action, so the value agrees with the unbounded loop for
every sufficient budget. -/
def siftdownGo (newitem : Node) (startpos : Nat) : Nat → List Node → Nat → List Node
  | 0, heap, pos => heap.set pos newitem
  | fuel + 1, heap, pos =>
    if startpos < pos then
      let parentpos := (pos - 1) / 2
      let parent := heap.getD parentpos default
      if newitem.freq < parent.freq then
        siftdownGo newitem startpos fuel (heap.set pos parent) parentpos
      else heap.set pos newitem
    else heap.set pos newitem

/-- heapq._siftdown(heap, startpos, pos). -/
def siftdown (heap : List Node) (startpos pos : Nat) : List Node :=
  siftdownGo (heap.getD pos default) startpos pos heap pos

/-- The while loop of heapq._siftup: descend along the smaller-child path
(childpos = 2*pos+1, moved to the right sibling when the right child is not
greater), copying the chosen child up, until a childless position is
reached; returns the final list and position.  Bounded by an iteration
budget as in siftdownGo (the position strictly increases below endpos, so
any budget ≥ endpos is sufficient; the budget-0 branch coincides with the
loop exit). -/
def siftupLoop (endpos : Nat) : Nat → List Node → Nat → List Node × Nat
  | 0, heap, pos => (heap, pos)
  | fuel + 1, heap, pos =>
    if 2 * pos + 1 < endpos then
      let childpos :=
        if 2 * pos + 2 < endpos ∧
            ¬ (heap.getD (2 * pos + 1) default).freq < (heap.getD (2 * pos + 2) default).freq
        then 2 * pos + 2 else 2 * pos + 1
      siftupLoop endpos fuel (heap.set pos (heap.getD childpos default)) childpos
    else (heap, pos)

/-- heapq._siftup(heap, pos): save newitem = heap[pos], run the descent
loop, store newitem at the final position, then _siftdown bounded by the
original position. -/
def siftup (heap : List Node) (pos : Nat) : List Node :=
  let endpos := heap.length
  let newitem := heap.getD pos default
  let hp := siftupLoop endpos endpos heap pos
  siftdown (hp.1.set hp.2 newitem) pos hp.2

/-- heapq.heappush(heap, item): append, then _siftdown(heap, 0, len-1). -/
def heappush (heap : List Node) (item : Node) : List Node :=
  let h := heap ++ [item]
  siftdown h 0 (h.length - 1)

/-- heapq.heappop(heap): lastelt = heap.pop() (IndexError when empty,
modelled by none); if the rest is nonempty, return heap[0] after writing
lastelt at index 0 and running _siftup(heap, 0). -/
def heappop (heap : List Node) : Option (Node × List Node) :=
  match heap.getLast? with
  | none => none
  | some lastelt =>
    match heap.dropLast with
    | [] => some (lastelt, [])
    | r0 :: rest => some (r0, siftup (lastelt :: rest) 0)

/-- The loop of heapq.heapify: for i in reversed(range(n//2)): _siftup(x, i). -/
def heapifyAux (heap : List Node) : Nat → List Node
  | 0 => heap
  | i + 1 => heapifyAux (siftup heap i) i

/-- heapq.heapify(x). -/
def heapify (heap : List Node) : List Node :=
  heapifyAux heap (heap.length / 2)

/-! ### collections.Counter, as used by build_tree -/

/-- The distinct characters of a list in first-occurrence order: the
iteration order of the keys of collections.Counter(text). -/
def firstOccs : List Char → List Char
  | [] => []
  | c :: rest => c :: (firstOccs rest).filter (fun x => x ≠ c)

/-- Counter(text).items(): each distinct character with its multiplicity,
in first-occurrence order. -/
def counterItems (text : List Char) : List (Char × Nat) :=
  (firstOccs text).map (fun c => (c, text.count c))

/-! ### HuffmanCoding -/

/-- The mutable instance state of a HuffmanCoding object: self.codes and
self.reverse_codes, dicts modelled as association lists where the most
recent write shadows older entries. -/
structure HState where
  codes : List (Char × List Char)
  reverse_codes : List (List Char × Char)
deriving DecidableEq, Repr

/-- The state set up by HuffmanCoding.__init__: two empty dicts. -/
def initState : HState := ⟨[], []⟩

/-- The while loop of build_tree: while len(heap) > 1, pop two nodes and
push their merge Node(None, left.freq + right.freq, left, right); the
unreachable none branches (the length guard keeps the heap large enough)
return the empty list.  Each iteration shrinks the heap by one element, so
the iteration budget passed by build_tree (the initial length) is exact,
and the budget-0 branch coincides with the loop exit. -/
def buildLoop : Nat → List Node → List Node
  | 0, heap => heap
  | fuel + 1, heap =>
    if 1 < heap.length then
      match heappop heap with
      | some (left, heap1) =>
        match heappop heap1 with
        | some (right, heap2) =>
          buildLoop fuel (heappush heap2 (Node.internal (left.freq + right.freq) left right))
        | none => []
      | none => []
    else heap

/-- HuffmanCoding.build_tree(text): heapify one leaf per Counter item,
merge down to one node, return heap[0] (IndexError when text is empty). -/
def build_tree (text : List Char) : Except PyErr Node :=
  let heap := (counterItems text).map (fun p => Node.leaf p.1 p.2)
  let heap := heapify heap
  match buildLoop heap.length heap with
  | [] => .error .indexError
  | t :: _ => .ok t

/-- HuffmanCoding.generate_codes(node, prefix): write the accumulated
prefix into self.codes / self.reverse_codes at a leaf (node.char truthy),
otherwise recurse left with prefix + "0" and right with prefix + "1". -/
def generate_codes : HState → Node → List Char → HState
  | st, .leaf c _, pre => ⟨(c, pre) :: st.codes, (pre, c) :: st.reverse_codes⟩
  | st, .internal _ l r, pre =>
    generate_codes (generate_codes st l (pre ++ ['0'])) r (pre ++ ['1'])

/-- The ''.join(self.codes[ch] for ch in text) of encode: concatenate the
code of each character, failing with KeyError on a missing entry. -/
def joinCodes (codes : List (Char × List Char)) : List Char → Except PyErr (List Char)
  | [] => .ok []
  | ch :: rest =>
    match codes.lookup ch with
    | none => .error .keyError
    | some cw =>
      match joinCodes codes rest with
      | .error e => .error e
      | .ok bits => .ok (cw ++ bits)

/-- HuffmanCoding.encode(text): build the tree, regenerate the code dicts
from it (prefix ""), join the per-character codes; returns the produced
(bitstring, tree) pair together with the instance state after the call. -/
def encode (st : HState) (text : List Char) :
    Except PyErr (List Char × Node) × HState :=
  match build_tree text with
  | .error e => (.error e, st)
  | .ok tree =>
    let st1 := generate_codes st tree []
    match joinCodes st1.codes text with
    | .error e => (.error e, st1)
    | .ok bits => (.ok (bits, tree), st1)

/-- The loop of HuffmanCoding.decode: one step per character of the
encoded text, node = node.left if bit == "0" else node.right; when the new
node has a truthy char, emit it and reset to the root.  Stepping from a
leaf reads .left/.right = None and then None.char, an AttributeError. -/
def decodeAux (tree : Node) : List Char → Node → List Char → Except PyErr (List Char)
  | [], _, decoded => .ok decoded.reverse
  | _ :: _, .leaf _ _, _ => .error .attributeError
  | bit :: rest, .internal _ l r, decoded =>
    match (if bit = '0' then l else r) with
    | .leaf c _ => decodeAux tree rest tree (c :: decoded)
    | .internal f l1 r1 => decodeAux tree rest (.internal f l1 r1) decoded

/-- HuffmanCoding.decode(encoded_text, tree). -/
def decode (encoded_text : List Char) (tree : Node) : Except PyErr (List Char) :=
  decodeAux tree encoded_text tree []

/-- Compress-then-decompress on a fresh HuffmanCoding instance: decode the
bitstring returned by encode against the tree returned by the same call. -/
def roundTrip (text : List Char) : Except PyErr (List Char) :=
  match (encode initState text).1 with
  | .error e => .error e
  | .ok (bits, tree) => decode bits tree

/-! ### Derived notions used to state and prove the properties -/

/-- The leaves of a node, left to right, as (char, freq) pairs. -/
def leaves : Node → List (Char × Nat)
  | .leaf c f => [(c, f)]
  | .internal _ l r => leaves l ++ leaves r

/-- The characters at the leaves of a node, left to right. -/
def leafChars (t : Node) : List Char :=
  (leaves t).map Prod.fst

/-- The leaves of a forest of nodes, as a multiset. -/
def forestLeaves (F : Multiset Node) : Multiset (Char × Nat) :=
  F.bind (fun t => ↑(leaves t))

/-- The (char, code) pairs that generate_codes prepends onto self.codes
when called on node t with the given accumulated code: one entry per leaf,
the right subtree's entries in front of the left subtree's, exactly the
write order of the source (later dict writes shadow earlier ones, and the
association-list model conses new writes at the front). -/
def codeList : Node → List Char → List (Char × List Char)
  | .leaf c _, pre => [(c, pre)]
  | .internal _ l r, pre => codeList r (pre ++ ['1']) ++ codeList l (pre ++ ['0'])

/-- The summed leaf weight of a node (computed from the leaves, independent
of the freq fields stored by the algorithm). -/
def wt (t : Node) : Nat :=
  ((leaves t).map Prod.snd).sum

/-- The weighted path length of a node: the sum over leaves of
frequency times depth, in its standard recursive form. -/
def wpl : Node → Nat
  | .leaf _ _ => 0
  | .internal _ l r => wpl l + wpl r + wt l + wt r

/-- A run of the merge loop: at every step two minimum-frequency members
of the forest are removed (the freq field is what Node.__lt__ and hence
the heap compares) and their merge Node(None, a.freq + b.freq, a, b) is
reinserted, until one tree remains. -/
inductive Merges : Multiset Node → Node → Prop
  | single (t : Node) : Merges {t} t
  | step {F : Multiset Node} {a b t : Node}
      (ha : a ∈ F) (hb : b ∈ F.erase a)
      (mina : ∀ x ∈ F, a.freq ≤ x.freq)
      (minb : ∀ x ∈ F.erase a, b.freq ≤ x.freq)
      (hrec : Merges (Node.internal (a.freq + b.freq) a b ::ₘ (F.erase a).erase b) t) :
      Merges F t

/-- The stored freq field agrees with the summed leaf weight (true of
every node the algorithm builds). -/
def FreqWf (t : Node) : Prop :=
  t.freq = wt t

/-- Modelled from the spec (§8.3): a binary prefix code for the symbol
distribution of a text is an assignment of bit strings (over the characters
'0' and '1') to the distinct symbols of the text in which no symbol's code
is a prefix of a different symbol's code. -/
def SpecBinaryPrefixCode (cw : Char → List Char) (text : List Char) : Prop :=
  (∀ c ∈ firstOccs text, ∀ x ∈ cw c, x = '0' ∨ x = '1') ∧
  (∀ c₁ ∈ firstOccs text, ∀ c₂ ∈ firstOccs text, c₁ ≠ c₂ → ¬ cw c₁ <+: cw c₂)

/-- Modelled from the spec (§8.3): the sum over symbols of
frequency(symbol) * length(code(symbol)) for a code assignment. -/
def codeCost (cw : Char → List Char) (text : List Char) : Nat :=
  ((counterItems text).map (fun p => p.2 * (cw p.1).length)).sum

/-- The code table entry of a character after a fresh generate_codes run
over tree t (the empty string when absent, which never happens for leaf
characters of t). -/
def codeOf (t : Node) (c : Char) : List Char :=
  ((generate_codes initState t []).codes.lookup c).getD []

/-- The parent index in the implicit array-backed binary heap. -/
def par (j : Nat) : Nat := (j - 1) / 2

/-- j lies in the subtree rooted at index i (iterated parents of j reach i). -/
def desc (i j : Nat) : Prop := ∃ k, par^[k] j = i

/-- The heapq invariant restricted to the subtree rooted at index i: no
element of that subtree is smaller than its parent (Node.__lt__ compares
freq, so this is the ordering heapq maintains). -/
def subHeap (hp : List Node) (i : Nat) : Prop :=
  ∀ j, desc i j → j ≠ i → j < hp.length →
    (hp.getD (par j) default).freq ≤ (hp.getD j default).freq

/-- The state of a bubble-up (_siftdown) in progress inside the subtree
rooted at root: position hole is a hole about to receive newitem; all
other subtree pairs satisfy the heap ordering, newitem is no larger than
the children of the hole, and the hole's parent is also no larger than
those children (so closing the hole anywhere on the path keeps order). -/
def HoleSub (hp : List Node) (root hole : Nat) (newitem : Node) : Prop :=
  (∀ j, desc root j → j ≠ root → j ≠ hole → j < hp.length →
    (hp.getD (par j) default).freq ≤ (hp.getD j default).freq) ∧
  (∀ c, (c = 2 * hole + 1 ∨ c = 2 * hole + 2) → c < hp.length →
    newitem.freq ≤ (hp.getD c default).freq ∧
    (hole ≠ root → (hp.getD (par hole) default).freq ≤ (hp.getD c default).freq))

/-- The cost of assigning each tree of a forest a depth: internal cost of
the tree plus its weight times the assigned depth, summed. -/
def vecCost (D : Multiset (Node × Nat)) : Nat :=
  (D.map (fun p => wpl p.1 + wt p.1 * p.2)).sum

/-- The Kraft sum of a depth assignment, normalised by an upper bound B on
all depths: the assignment is realisable as a full binary tree exactly
when this equals 2 ^ B. -/
def kraftSum (B : Nat) (D : Multiset (Node × Nat)) : Nat :=
  (D.map (fun p => 2 ^ (B - p.2))).sum

/-- The leaves of a node together with their depths below the given start
depth: (char, freq, depth) triples. -/
def leafDepths : Node → Nat → List (Char × Nat × Nat)
  | .leaf c f, d => [(c, f, d)]
  | .internal _ l r, d => leafDepths l (d + 1) ++ leafDepths r (d + 1)

/-- Strip an expected leading character from a word: the head-partition
step of the Kraft-inequality argument. -/
def tailAfter (b : Char) : List Char → Option (List Char)
  | [] => none
  | x :: u => if x = b then some u else none

/-! ### Length and multiset facts about the heap operations -/

/-- siftdownGo only rewrites entries in place, so it preserves the length. -/
theorem length_siftdownGo (newitem : Node) (startpos fuel : Nat) (heap : List Node) (pos : Nat) :
    (siftdownGo newitem startpos fuel heap pos).length = heap.length := by
  induction fuel generalizing heap pos with
  | zero => exact List.length_set ..
  | succ fuel ih =>
    rw [siftdownGo]
    split
    · dsimp only
      split
      · rw [ih, List.length_set]
      · exact List.length_set ..
    · exact List.length_set ..

/-- siftdown preserves the length. -/
theorem length_siftdown (heap : List Node) (startpos pos : Nat) :
    (siftdown heap startpos pos).length = heap.length :=
  length_siftdownGo ..

/-- The descent loop of _siftup preserves the length. -/
theorem length_siftupLoop (endpos fuel : Nat) (heap : List Node) (pos : Nat) :
    (siftupLoop endpos fuel heap pos).1.length = heap.length := by
  induction fuel generalizing heap pos with
  | zero => rfl
  | succ fuel ih =>
    rw [siftupLoop]
    split
    · dsimp only
      rw [ih, List.length_set]
    · rfl

/-- siftup preserves the length. -/
theorem length_siftup (heap : List Node) (pos : Nat) :
    (siftup heap pos).length = heap.length := by
  unfold siftup
  rw [length_siftdown, List.length_set, length_siftupLoop]

/-- heappush grows the heap by one element. -/
theorem length_heappush (heap : List Node) (item : Node) :
    (heappush heap item).length = heap.length + 1 := by
  unfold heappush
  rw [length_siftdown, List.length_append, List.length_cons, List.length_nil]

/-- heappop shrinks the heap by one element. -/
theorem length_heappop {heap : List Node} {p : Node × List Node}
    (h : heappop heap = some p) : p.2.length + 1 = heap.length := by
  unfold heappop at h
  cases hl : heap.getLast? with
  | none => rw [hl] at h; exact absurd h (by simp)
  | some lastelt =>
    rw [hl] at h
    have hne : heap ≠ [] := by rintro rfl; simp at hl
    have h0 : heap.length ≠ 0 := fun h0 => hne (List.length_eq_zero.mp h0)
    have hdl : heap.dropLast.length + 1 = heap.length := by
      have h1 := List.length_dropLast heap
      omega
    cases hd : heap.dropLast with
    | nil => rw [hd] at h; cases h; rw [hd] at hdl; simpa using hdl
    | cons r0 rest =>
      rw [hd] at h
      cases h
      rw [hd] at hdl
      simp only [length_siftup, List.length_cons]
      simp only [List.length_cons] at hdl
      omega

/-! ### Elementary facts about getD / set, and the heap operations as
multiset rearrangements -/

/-- Reading a just-written index. -/
theorem getD_set_self (l : List Node) (i : Nat) (x d : Node) (h : i < l.length) :
    (l.set i x).getD i d = x := by
  induction l generalizing i with
  | nil => simp at h
  | cons a t ih =>
    cases i with
    | zero => rfl
    | succ n => exact ih n (by simpa using h)

/-- Reading an index other than the written one. -/
theorem getD_set_ne (l : List Node) (i j : Nat) (x d : Node) (h : i ≠ j) :
    (l.set i x).getD j d = l.getD j d := by
  induction l generalizing i j with
  | nil => rfl
  | cons a t ih =>
    cases i with
    | zero => cases j with
      | zero => exact absurd rfl h
      | succ m => rfl
    | succ n => cases j with
      | zero => rfl
      | succ m => exact ih n m (fun hnm => h (by rw [hnm]))

/-- Writing x at a valid index i exchanges x with the element stored
there, as multisets: the displaced element joined to the new list matches
x joined to the old list. -/
theorem multiset_set (l : List Node) (i : Nat) (x d : Node) (h : i < l.length) :
    (l.getD i d ::ₘ ↑(l.set i x) : Multiset Node) = x ::ₘ ↑l := by
  induction l generalizing i with
  | nil => simp at h
  | cons a t ih =>
    cases i with
    | zero =>
      show (a ::ₘ ↑(x :: t) : Multiset Node) = x ::ₘ ↑(a :: t)
      simp only [← Multiset.cons_coe]
      exact Multiset.cons_swap ..
    | succ n =>
      show (t.getD n d ::ₘ ↑(a :: t.set n x) : Multiset Node) = x ::ₘ ↑(a :: t)
      have htn := ih n (by simpa using h)
      simp only [← Multiset.cons_coe]
      rw [Multiset.cons_swap, htn, Multiset.cons_swap]

/-- siftdownGo rearranges the heap: it consumes the (stale) entry at pos
and deposits newitem, touching nothing else. -/
theorem perm_siftdownGo (newitem : Node) (startpos fuel : Nat) (heap : List Node) (pos : Nat)
    (h : pos < heap.length) :
    (heap.getD pos default ::ₘ ↑(siftdownGo newitem startpos fuel heap pos) : Multiset Node) =
      newitem ::ₘ ↑heap := by
  induction fuel generalizing heap pos with
  | zero => exact multiset_set heap pos newitem default h
  | succ fuel ih =>
    rw [siftdownGo]
    split
    · next hlt =>
      dsimp only
      split
      · next hcmp =>
        set P := heap.getD ((pos - 1) / 2) default with hP
        have hpp : pos ≠ (pos - 1) / 2 := by omega
        have hpl : (pos - 1) / 2 < (heap.set pos P).length := by
          rw [List.length_set]; omega
        have hrec := ih (heap.set pos P) ((pos - 1) / 2) hpl
        rw [getD_set_ne _ _ _ _ _ hpp, ← hP] at hrec
        have hset := multiset_set heap pos P default h
        have step : (P ::ₘ (heap.getD pos default ::ₘ
            ↑(siftdownGo newitem startpos fuel (heap.set pos P) ((pos - 1) / 2))) :
              Multiset Node) = P ::ₘ (newitem ::ₘ ↑heap) := by
          rw [Multiset.cons_swap, hrec, Multiset.cons_swap, hset, Multiset.cons_swap]
        exact (Multiset.cons_inj_right P).mp step
      · exact multiset_set heap pos newitem default h
    · exact multiset_set heap pos newitem default h

/-- The descent loop of _siftup consumes the entry at the initial position
and deposits a copy of the entry that ends at the final position. -/
theorem perm_siftupLoop (endpos fuel : Nat) (heap : List Node) (pos : Nat)
    (hend : endpos ≤ heap.length) (h : pos < heap.length) :
    (heap.getD pos default ::ₘ ↑(siftupLoop endpos fuel heap pos).1 : Multiset Node) =
      (siftupLoop endpos fuel heap pos).1.getD (siftupLoop endpos fuel heap pos).2 default ::ₘ
        ↑heap ∧
      (siftupLoop endpos fuel heap pos).2 < heap.length := by
  induction fuel generalizing heap pos with
  | zero => exact ⟨rfl, h⟩
  | succ fuel ih =>
    rw [siftupLoop]
    split
    · next hcl =>
      dsimp only
      set cp := if 2 * pos + 2 < endpos ∧
          ¬ (heap.getD (2 * pos + 1) default).freq < (heap.getD (2 * pos + 2) default).freq
        then 2 * pos + 2 else 2 * pos + 1 with hcp
      have hcpb : pos < cp ∧ cp < endpos := by
        rw [hcp]; split <;> omega
      set C := heap.getD cp default with hC
      have hset := multiset_set heap pos C default h
      have hpl : cp < (heap.set pos C).length := by rw [List.length_set]; omega
      have hrec := ih (heap.set pos C) cp (by rw [List.length_set]; exact hend) hpl
      rw [getD_set_ne _ _ _ _ _ (Nat.ne_of_lt hcpb.1), ← hC] at hrec
      refine ⟨?_, by simpa [List.length_set] using hrec.2⟩
      have step : (C ::ₘ (heap.getD pos default ::ₘ
          ↑(siftupLoop endpos fuel (heap.set pos C) cp).1) : Multiset Node) =
          C ::ₘ ((siftupLoop endpos fuel (heap.set pos C) cp).1.getD
            (siftupLoop endpos fuel (heap.set pos C) cp).2 default ::ₘ ↑heap) := by
        rw [Multiset.cons_swap, hrec.1, Multiset.cons_swap, hset, Multiset.cons_swap]
      exact (Multiset.cons_inj_right C).mp step
    · exact ⟨rfl, h⟩

/-- siftdown reads its moving item from the heap itself, so it permutes
the heap. -/
theorem perm_siftdown (heap : List Node) (startpos pos : Nat) (h : pos < heap.length) :
    (↑(siftdown heap startpos pos) : Multiset Node) = ↑heap := by
  have hperm := perm_siftdownGo (heap.getD pos default) startpos pos heap pos h
  exact (Multiset.cons_inj_right _).mp hperm

/-- siftup permutes the heap. -/
theorem perm_siftup (heap : List Node) (pos : Nat) (h : pos < heap.length) :
    (↑(siftup heap pos) : Multiset Node) = ↑heap := by
  have heq : siftup heap pos =
      siftdown ((siftupLoop heap.length heap.length heap pos).1.set
        (siftupLoop heap.length heap.length heap pos).2 (heap.getD pos default)) pos
        (siftupLoop heap.length heap.length heap pos).2 := rfl
  rw [heq]
  set hp := siftupLoop heap.length heap.length heap pos with hhp
  have hloop := perm_siftupLoop heap.length heap.length heap pos le_rfl h
  rw [← hhp] at hloop
  have hlen1 : hp.1.length = heap.length := by rw [hhp]; exact length_siftupLoop ..
  have hp2lt : hp.2 < hp.1.length := by rw [hlen1]; exact hloop.2
  have hset := multiset_set hp.1 hp.2 (heap.getD pos default) default hp2lt
  rw [perm_siftdown _ pos hp.2 (by rw [List.length_set]; exact hp2lt)]
  have step1 : (hp.1.getD hp.2 default ::ₘ ↑(hp.1.set hp.2 (heap.getD pos default)) :
      Multiset Node) = hp.1.getD hp.2 default ::ₘ ↑heap := by
    rw [hset, hloop.1]
  exact (Multiset.cons_inj_right _).mp step1

/-- Reading the appended element. -/
theorem getD_concat_self (l : List Node) (x d : Node) :
    (l ++ [x]).getD l.length d = x := by
  induction l with
  | nil => rfl
  | cons a t ih => exact ih

/-- A list with one element appended, as a multiset. -/
theorem coe_concat (l : List Node) (x : Node) :
    (↑(l ++ [x]) : Multiset Node) = x ::ₘ ↑l := by
  induction l with
  | nil => rfl
  | cons a t ih =>
    show (a ::ₘ ↑(t ++ [x]) : Multiset Node) = x ::ₘ (a ::ₘ ↑t)
    rw [ih, Multiset.cons_swap]

/-- heappush adds exactly the pushed item. -/
theorem perm_heappush (heap : List Node) (item : Node) :
    (↑(heappush heap item) : Multiset Node) = item ::ₘ ↑heap := by
  unfold heappush siftdown
  dsimp only
  have hpos : (heap ++ [item]).length - 1 = heap.length := by simp
  rw [hpos]
  have hget : (heap ++ [item]).getD heap.length default = item := getD_concat_self ..
  rw [hget]
  have hperm := perm_siftdownGo item 0 heap.length (heap ++ [item]) heap.length (by simp)
  rw [hget] at hperm
  have hres := (Multiset.cons_inj_right item).mp hperm
  rw [hres, coe_concat]

/-- heappop removes exactly the returned item. -/
theorem perm_heappop {heap : List Node} {p : Node × List Node}
    (h : heappop heap = some p) : (↑heap : Multiset Node) = p.1 ::ₘ ↑p.2 := by
  unfold heappop at h
  cases hl : heap.getLast? with
  | none => rw [hl] at h; exact absurd h (by simp)
  | some lastelt =>
    rw [hl] at h
    have hne : heap ≠ [] := by rintro rfl; simp at hl
    have hlast : heap.getLast hne = lastelt := by
      have := List.getLast?_eq_getLast heap hne
      rw [hl] at this; exact (Option.some_inj.mp this).symm
    have hsplit : heap.dropLast ++ [lastelt] = heap := by
      rw [← hlast]; exact List.dropLast_append_getLast hne
    cases hd : heap.dropLast with
    | nil =>
      rw [hd] at h hsplit
      cases h
      rw [← hsplit]
      rfl
    | cons r0 rest =>
      rw [hd] at h hsplit
      cases h
      have hperm : (↑(siftup (lastelt :: rest) 0) : Multiset Node) = ↑(lastelt :: rest) :=
        perm_siftup _ 0 (by simp)
      show (↑heap : Multiset Node) = r0 ::ₘ ↑(siftup (lastelt :: rest) 0)
      rw [hperm, ← hsplit, coe_concat]
      show lastelt ::ₘ ↑(r0 :: rest) = r0 ::ₘ ↑(lastelt :: rest)
      simp only [← Multiset.cons_coe]
      exact Multiset.cons_swap ..

/-- The heapify loop permutes the heap. -/
theorem perm_heapifyAux (heap : List Node) (k : Nat) (hk : k ≤ heap.length) :
    (↑(heapifyAux heap k) : Multiset Node) = ↑heap := by
  induction k generalizing heap with
  | zero => rfl
  | succ i ih =>
    show (↑(heapifyAux (siftup heap i) i) : Multiset Node) = ↑heap
    rw [ih _ (by rw [length_siftup]; omega), perm_siftup _ _ (by omega)]

/-- heapify permutes the heap. -/
theorem perm_heapify (heap : List Node) :
    (↑(heapify heap) : Multiset Node) = ↑heap :=
  perm_heapifyAux heap _ (Nat.div_le_self ..)

/-- The heapify loop preserves the length. -/
theorem length_heapifyAux (heap : List Node) (k : Nat) :
    (heapifyAux heap k).length = heap.length := by
  induction k generalizing heap with
  | zero => rfl
  | succ i ih =>
    show (heapifyAux (siftup heap i) i).length = heap.length
    rw [ih, length_siftup]

/-- heapify preserves the length. -/
theorem length_heapify (heap : List Node) : (heapify heap).length = heap.length :=
  length_heapifyAux ..

/-! ### The merge loop of build_tree: shape and leaf content -/

/-- heappop fails only on the empty heap. -/
theorem heappop_none {heap : List Node} (h : heappop heap = none) : heap = [] := by
  cases heap with
  | nil => rfl
  | cons a t =>
    exfalso
    unfold heappop at h
    rw [List.getLast?_eq_getLast _ (by simp)] at h
    cases hd : (a :: t).dropLast with
    | nil => rw [hd] at h; exact absurd h (by simp)
    | cons r0 rest => rw [hd] at h; exact absurd h (by simp)

/-- A single-element heap is returned unchanged by the merge loop. -/
theorem buildLoop_single (fuel : Nat) (t : Node) : buildLoop fuel [t] = [t] := by
  cases fuel <;> rfl

/-- The merge loop on the empty heap. -/
theorem buildLoop_nil (fuel : Nat) : buildLoop fuel [] = [] := by
  cases fuel <;> rfl

/-- heappush on the empty heap. -/
theorem heappush_nil (x : Node) : heappush [] x = [x] := rfl

/-- forestLeaves over a cons. -/
theorem forestLeaves_cons (t : Node) (F : Multiset Node) :
    forestLeaves (t ::ₘ F) = ↑(leaves t) + forestLeaves F :=
  Multiset.cons_bind ..

/-- The merge loop preserves the leaves of the forest. -/
theorem forestLeaves_buildLoop (fuel : Nat) : ∀ heap : List Node,
    forestLeaves ↑(buildLoop fuel heap) = forestLeaves ↑heap := by
  induction fuel with
  | zero => intro heap; rfl
  | succ fuel ih =>
    intro heap
    rw [buildLoop]
    split
    · next hlen =>
      split
      · next left heap1 hp1 =>
        split
        · next right heap2 hp2 =>
          rw [ih]
          have e1 : (↑(heappush heap2 (Node.internal (left.freq + right.freq) left right)) :
              Multiset Node) =
              Node.internal (left.freq + right.freq) left right ::ₘ ↑heap2 := perm_heappush ..
          have e2 : (↑heap : Multiset Node) = left ::ₘ ↑heap1 := perm_heappop hp1
          have e3 : (↑heap1 : Multiset Node) = right ::ₘ ↑heap2 := perm_heappop hp2
          rw [e1, e2, e3, forestLeaves_cons, forestLeaves_cons, forestLeaves_cons]
          show (↑(leaves left ++ leaves right) : Multiset (Char × Nat)) + forestLeaves ↑heap2 =
            ↑(leaves left) + (↑(leaves right) + forestLeaves ↑heap2)
          rw [← Multiset.coe_add, add_assoc]
        · next hp2 =>
          exfalso
          have h1 := heappop_none hp2
          have hl1 : heap1.length + 1 = heap.length := length_heappop hp1
          rw [h1] at hl1
          simp only [List.length_nil] at hl1
          omega
      · next hp1 =>
        have := heappop_none hp1
        subst this; simp at hlen
    · rfl

/-- When the initial heap is nonempty and the budget is sufficient, the
merge loop ends with exactly one node. -/
theorem buildLoop_ok (fuel : Nat) : ∀ heap : List Node, 0 < heap.length →
    heap.length ≤ fuel + 1 → ∃ t, buildLoop fuel heap = [t] := by
  induction fuel with
  | zero =>
    intro heap h1 h2
    cases heap with
    | nil => simp at h1
    | cons a tail =>
      cases tail with
      | nil => exact ⟨a, rfl⟩
      | cons b tb => simp at h2
  | succ fuel ih =>
    intro heap h1 h2
    rw [buildLoop]
    split
    · next hlen =>
      split
      · next left heap1 hp1 =>
        split
        · next right heap2 hp2 =>
          have hl1 : heap1.length + 1 = heap.length := length_heappop hp1
          have hl2 : heap2.length + 1 = heap1.length := length_heappop hp2
          exact ih _ (by rw [length_heappush]; omega) (by rw [length_heappush]; omega)
        · next hp2 =>
          exfalso
          have h0 := heappop_none hp2
          have hl1 : heap1.length + 1 = heap.length := length_heappop hp1
          rw [h0] at hl1
          simp only [List.length_nil] at hl1
          omega
      · next hp1 =>
        have := heappop_none hp1
        subst this; simp at hlen
    · next hlen =>
      cases heap with
      | nil => simp at h1
      | cons a tail =>
        cases tail with
        | nil => exact ⟨a, rfl⟩
        | cons b tb =>
          exfalso
          apply hlen
          simp

/-- When the initial heap has at least two nodes, the merge loop ends with
a single internal node (the last pushed merge). -/
theorem buildLoop_root_internal (fuel : Nat) : ∀ heap : List Node, 2 ≤ heap.length →
    heap.length ≤ fuel + 1 → ∃ f l r, buildLoop fuel heap = [Node.internal f l r] := by
  induction fuel with
  | zero =>
    intro heap h1 h2
    exact absurd h2 (by omega)
  | succ fuel ih =>
    intro heap h1 h2
    rw [buildLoop, if_pos (by omega)]
    split
    · next left heap1 hp1 =>
      split
      · next right heap2 hp2 =>
        have hl1 : heap1.length + 1 = heap.length := length_heappop hp1
        have hl2 : heap2.length + 1 = heap1.length := length_heappop hp2
        by_cases h2len : heap2 = []
        · subst h2len
          rw [heappush_nil, buildLoop_single]
          exact ⟨_, _, _, rfl⟩
        · have : 0 < heap2.length := List.length_pos.mpr h2len
          exact ih _ (by rw [length_heappush]; omega) (by rw [length_heappush]; omega)
      · next hp2 =>
        exfalso
        have h0 := heappop_none hp2
        have hl1 : heap1.length + 1 = heap.length := length_heappop hp1
        rw [h0] at hl1
        simp only [List.length_nil] at hl1
        omega
    · next hp1 =>
      have := heappop_none hp1
      subst this; simp at h1

/-- The initial forest of leaves carries exactly the Counter items. -/
theorem forestLeaves_leafList (ps : List (Char × Nat)) :
    forestLeaves ↑(ps.map (fun p => Node.leaf p.1 p.2)) = ↑ps := by
  induction ps with
  | nil => rfl
  | cons p ps ih =>
    show forestLeaves ↑(Node.leaf p.1 p.2 :: ps.map (fun p => Node.leaf p.1 p.2)) = ↑(p :: ps)
    rw [← Multiset.cons_coe, forestLeaves_cons, ih]
    show (↑[p] : Multiset (Char × Nat)) + ↑ps = ↑(p :: ps)
    rw [Multiset.coe_add]
    rfl

/-- A nonempty text yields a nonempty Counter. -/
theorem counterItems_ne_nil {text : List Char} (h : text ≠ []) : counterItems text ≠ [] := by
  cases text with
  | nil => exact absurd rfl h
  | cons c rest => simp [counterItems, firstOccs]

/-- build_tree succeeds on every nonempty text. -/
theorem build_tree_exists {text : List Char} (h : text ≠ []) :
    ∃ t, build_tree text = .ok t := by
  unfold build_tree
  dsimp only
  have hlen0 : 0 < ((counterItems text).map (fun p => Node.leaf p.1 p.2)).length := by
    rw [List.length_map]
    exact List.length_pos.mpr (counterItems_ne_nil h)
  have hlen : 0 < (heapify ((counterItems text).map (fun p => Node.leaf p.1 p.2))).length := by
    rw [length_heapify]; exact hlen0
  obtain ⟨t, ht⟩ := buildLoop_ok
    (heapify ((counterItems text).map (fun p => Node.leaf p.1 p.2))).length
    (heapify ((counterItems text).map (fun p => Node.leaf p.1 p.2))) hlen (by omega)
  rw [ht]
  exact ⟨t, rfl⟩

/-- The tree returned by build_tree carries, at its leaves, exactly the
(char, freq) items of Counter(text). -/
theorem build_tree_leaves {text : List Char} {t : Node} (h : build_tree text = .ok t) :
    (↑(leaves t) : Multiset (Char × Nat)) = ↑(counterItems text) := by
  unfold build_tree at h
  dsimp only at h
  by_cases h0 : (counterItems text).map (fun p => Node.leaf p.1 p.2) = []
  · rw [h0] at h
    rw [show heapify [] = [] from rfl, buildLoop_nil] at h
    exact absurd h (by simp)
  · have hlen0 : 0 < ((counterItems text).map (fun p => Node.leaf p.1 p.2)).length :=
      List.length_pos.mpr h0
    have hlen : 0 < (heapify ((counterItems text).map (fun p => Node.leaf p.1 p.2))).length := by
      rw [length_heapify]; exact hlen0
    obtain ⟨t0, ht0⟩ := buildLoop_ok
      (heapify ((counterItems text).map (fun p => Node.leaf p.1 p.2))).length
      (heapify ((counterItems text).map (fun p => Node.leaf p.1 p.2))) hlen (by omega)
    rw [ht0] at h
    have hte : t0 = t := by injection h
    subst hte
    have hf := forestLeaves_buildLoop
      (heapify ((counterItems text).map (fun p => Node.leaf p.1 p.2))).length
      (heapify ((counterItems text).map (fun p => Node.leaf p.1 p.2)))
    rw [ht0] at hf
    have hsingle : forestLeaves ↑[t0] = (↑(leaves t0) : Multiset (Char × Nat)) := by
      show Multiset.bind {t0} _ = _
      rw [Multiset.singleton_bind]
    rw [hsingle] at hf
    rw [hf]
    have hperm := perm_heapify ((counterItems text).map (fun p => Node.leaf p.1 p.2))
    show forestLeaves ↑(heapify ((counterItems text).map (fun p => Node.leaf p.1 p.2))) = _
    rw [hperm]
    exact forestLeaves_leafList _

/-- With at least two distinct characters, the root of the built tree is
an internal node. -/
theorem build_tree_root_internal {text : List Char} {t : Node}
    (h2 : 2 ≤ (firstOccs text).length) (h : build_tree text = .ok t) :
    ∃ f l r, t = Node.internal f l r := by
  unfold build_tree at h
  dsimp only at h
  have hlen0 : 2 ≤ ((counterItems text).map (fun p => Node.leaf p.1 p.2)).length := by
    rw [List.length_map]
    unfold counterItems
    rw [List.length_map]
    exact h2
  have hlen : 2 ≤ (heapify ((counterItems text).map (fun p => Node.leaf p.1 p.2))).length := by
    rw [length_heapify]; exact hlen0
  obtain ⟨f, l, r, hb⟩ := buildLoop_root_internal
    (heapify ((counterItems text).map (fun p => Node.leaf p.1 p.2))).length
    (heapify ((counterItems text).map (fun p => Node.leaf p.1 p.2))) hlen (by omega)
  rw [hb] at h
  have : Node.internal f l r = t := by injection h
  exact ⟨f, l, r, this.symm⟩

/-! ### Counter facts -/

/-- firstOccs keeps exactly the characters of the text. -/
theorem mem_firstOccs {c : Char} : ∀ {l : List Char}, c ∈ firstOccs l ↔ c ∈ l := by
  intro l
  induction l with
  | nil => simp [firstOccs]
  | cons a rest ih =>
    simp only [firstOccs, List.mem_cons, List.mem_filter, decide_eq_true_eq]
    constructor
    · rintro (rfl | ⟨hm, _⟩)
      · exact .inl rfl
      · exact .inr (ih.mp hm)
    · rintro (rfl | hm)
      · exact .inl rfl
      · by_cases hc : c = a
        · exact .inl hc
        · exact .inr ⟨ih.mpr hm, hc⟩

/-- firstOccs lists each character once. -/
theorem nodup_firstOccs : ∀ (l : List Char), (firstOccs l).Nodup := by
  intro l
  induction l with
  | nil => exact List.nodup_nil
  | cons a rest ih =>
    refine List.Nodup.cons ?_ (ih.filter _)
    intro hmem
    have := List.of_mem_filter hmem
    simp at this

/-- The keys of Counter(text).items() are the distinct characters. -/
theorem counterItems_keys (text : List Char) :
    (counterItems text).map Prod.fst = firstOccs text := by
  unfold counterItems
  rw [List.map_map]
  exact List.map_id'' (fun _ => rfl) _

/-! ### generate_codes: the code table it builds -/

/-- generate_codes prepends exactly the codeList entries onto self.codes. -/
theorem generate_codes_codes : ∀ (t : Node) (st : HState) (pre : List Char),
    (generate_codes st t pre).codes = codeList t pre ++ st.codes := by
  intro t
  induction t with
  | leaf c f => intro st pre; rfl
  | internal f l r ihl ihr =>
    intro st pre
    show (generate_codes (generate_codes st l (pre ++ ['0'])) r (pre ++ ['1'])).codes =
      (codeList r (pre ++ ['1']) ++ codeList l (pre ++ ['0'])) ++ st.codes
    rw [ihr, ihl, List.append_assoc]

/-- Every codeList entry is pre followed by the entry for the empty
accumulated code. -/
theorem codeList_pre : ∀ (t : Node) (pre : List Char),
    codeList t pre = (codeList t []).map (fun q => (q.1, pre ++ q.2)) := by
  intro t
  induction t with
  | leaf c f => intro pre; simp [codeList]
  | internal f l r ihl ihr =>
    intro pre
    show codeList r (pre ++ ['1']) ++ codeList l (pre ++ ['0']) =
      (codeList r ['1'] ++ codeList l ['0']).map (fun q => (q.1, pre ++ q.2))
    rw [List.map_append, ihr (pre ++ ['1']), ihl (pre ++ ['0']), ihr ['1'], ihl ['0'],
      List.map_map, List.map_map]
    congr 1 <;> ext q <;> simp

/-- The keys of the codeList are the leaf characters (in reverse order). -/
theorem codeList_keys : ∀ (t : Node) (pre : List Char),
    (codeList t pre).map Prod.fst = (leafChars t).reverse := by
  intro t
  induction t with
  | leaf c f => intro pre; rfl
  | internal f l r ihl ihr =>
    intro pre
    show (codeList r (pre ++ ['1']) ++ codeList l (pre ++ ['0'])).map Prod.fst = _
    rw [List.map_append, ihr, ihl]
    unfold leafChars
    show _ = ((leaves l ++ leaves r).map Prod.fst).reverse
    rw [List.map_append, List.reverse_append]

/-! ### Association-list lookup (Python dict read) -/

/-- A successful lookup returns a stored entry. -/
theorem lookup_mem {A : List (Char × List Char)} {k : Char} {v : List Char}
    (h : A.lookup k = some v) : (k, v) ∈ A := by
  induction A with
  | nil => simp [List.lookup] at h
  | cons p rest ih =>
    obtain ⟨k0, v0⟩ := p
    rw [List.lookup] at h
    by_cases hb : k = k0
    · rw [show (k == k0) = true by simpa using hb] at h
      simp only at h
      cases h
      subst hb
      exact .head _
    · rw [show (k == k0) = false by simpa using hb] at h
      simp only at h
      exact .tail _ (ih h)

/-- A key that occurs among the keys can be looked up. -/
theorem lookup_isSome {A : List (Char × List Char)} {k : Char}
    (h : k ∈ A.map Prod.fst) : ∃ v, A.lookup k = some v := by
  induction A with
  | nil => simp at h
  | cons p rest ih =>
    obtain ⟨k0, v0⟩ := p
    rw [List.map_cons] at h
    rw [List.lookup]
    by_cases hb : k = k0
    · rw [show (k == k0) = true by simpa using hb]
      exact ⟨v0, rfl⟩
    · rw [show (k == k0) = false by simpa using hb]
      rcases List.mem_cons.mp h with h1 | h1
      · exact absurd h1 hb
      · exact ih h1

/-- Lookup ignores the tail when the key occurs in the front part. -/
theorem lookup_append_left {A : List (Char × List Char)} (B : List (Char × List Char)) {k : Char}
    (h : k ∈ A.map Prod.fst) : (A ++ B).lookup k = A.lookup k := by
  induction A with
  | nil => simp at h
  | cons p rest ih =>
    obtain ⟨k0, v0⟩ := p
    rw [List.map_cons] at h
    show List.lookup k ((k0, v0) :: (rest ++ B)) = _
    rw [List.lookup, List.lookup]
    by_cases hb : k = k0
    · rw [show (k == k0) = true by simpa using hb]
    · rw [show (k == k0) = false by simpa using hb]
      simp only
      rcases List.mem_cons.mp h with h1 | h1
      · exact absurd h1 hb
      · exact ih h1

/-- When the keys are distinct, lookup retrieves any stored entry. -/
theorem lookup_of_mem_nodup {A : List (Char × List Char)} (hnd : (A.map Prod.fst).Nodup)
    {k : Char} {v : List Char} (hm : (k, v) ∈ A) : A.lookup k = some v := by
  induction A with
  | nil => simp at hm
  | cons p rest ih =>
    obtain ⟨k0, v0⟩ := p
    rw [List.lookup]
    rcases List.mem_cons.mp hm with h1 | h1
    · cases h1
      rw [show (k == k) = true by simp]
    · have hk : k ∈ rest.map Prod.fst := List.mem_map.mpr ⟨(k, v), h1, rfl⟩
      by_cases hb : k = k0
      · exfalso
        have hh := (List.nodup_cons.mp hnd).1
        rw [hb] at hk
        exact hh hk
      · rw [show (k == k0) = false by simpa using hb]
        simp only
        exact ih (List.nodup_cons.mp hnd).2 h1

/-! ### joinCodes -/

/-- Two code tables that agree on the text's characters produce the same
joined bitstring. -/
theorem joinCodes_congr {A B : List (Char × List Char)} : ∀ {text : List Char},
    (∀ ch ∈ text, A.lookup ch = B.lookup ch) → joinCodes A text = joinCodes B text := by
  intro text
  induction text with
  | nil => intro _; rfl
  | cons ch rest ih =>
    intro h
    simp only [joinCodes]
    rw [h ch (.head _), ih (fun c hc => h c (.tail _ hc))]

/-- joinCodes succeeds when every character of the text has an entry. -/
theorem joinCodes_ok {A : List (Char × List Char)} : ∀ {text : List Char},
    (∀ ch ∈ text, ch ∈ A.map Prod.fst) → ∃ bits, joinCodes A text = .ok bits := by
  intro text
  induction text with
  | nil => intro _; exact ⟨[], rfl⟩
  | cons ch rest ih =>
    intro h
    obtain ⟨cw, hcw⟩ := lookup_isSome (h ch (.head _))
    obtain ⟨bits1, hb1⟩ := ih (fun c hc => h c (.tail _ hc))
    refine ⟨cw ++ bits1, ?_⟩
    simp only [joinCodes]
    rw [hcw, hb1]

/-! ### The decode walk -/

/-- One decode step on bit "1" from an internal node: descend right. -/
theorem decodeAux_step_one (R l r : Node) (f : Nat) (rest acc : List Char) :
    decodeAux R ('1' :: rest) (.internal f l r) acc =
      (match r with
       | .leaf c _ => decodeAux R rest R (c :: acc)
       | .internal f1 l1 r1 => decodeAux R rest (.internal f1 l1 r1) acc) := rfl

/-- One decode step on bit "0" from an internal node: descend left. -/
theorem decodeAux_step_zero (R l r : Node) (f : Nat) (rest acc : List Char) :
    decodeAux R ('0' :: rest) (.internal f l r) acc =
      (match l with
       | .leaf c _ => decodeAux R rest R (c :: acc)
       | .internal f1 l1 r1 => decodeAux R rest (.internal f1 l1 r1) acc) := rfl

/-- Following the codeList entry of a character from an internal node
consumes exactly that code, emits the character and resets to the root. -/
theorem decode_walk : ∀ (t : Node), (∀ cc ff, t ≠ .leaf cc ff) →
    ∀ (R : Node) (c : Char) (p q acc : List Char), (c, p) ∈ codeList t [] →
    decodeAux R (p ++ q) t acc = decodeAux R q R (c :: acc) := by
  intro t
  induction t with
  | leaf cc ff => intro h; exact absurd rfl (h cc ff)
  | internal f l r ihl ihr =>
    intro _ R c p q acc hmem
    have hmem9 : (c, p) ∈ codeList r ['1'] ++ codeList l ['0'] := hmem
    rcases List.mem_append.mp hmem9 with hmr | hml
    · rw [codeList_pre r ['1']] at hmr
      obtain ⟨⟨c1, p1⟩, hmem2, heq⟩ := List.mem_map.mp hmr
      have heq' : (c1, ('1' :: p1 : List Char)) = (c, p) := heq
      injection heq' with he1 he2
      subst he1
      rw [← he2]
      rw [show ('1' :: p1) ++ q = '1' :: (p1 ++ q) from rfl]
      rw [decodeAux_step_one]
      cases r with
      | leaf c2 f2 =>
        have h3 : (c1, p1) ∈ [(c2, ([] : List Char))] := hmem2
        simp only [List.mem_singleton] at h3
        injection h3 with h4 h5
        subst h4
        subst h5
        rfl
      | internal f2 l2 r2 =>
        exact ihr (fun cc ff h => Node.noConfusion h) R c1 p1 q acc hmem2
    · rw [codeList_pre l ['0']] at hml
      obtain ⟨⟨c1, p1⟩, hmem2, heq⟩ := List.mem_map.mp hml
      have heq' : (c1, ('0' :: p1 : List Char)) = (c, p) := heq
      injection heq' with he1 he2
      subst he1
      rw [← he2]
      rw [show ('0' :: p1) ++ q = '0' :: (p1 ++ q) from rfl]
      rw [decodeAux_step_zero]
      cases l with
      | leaf c2 f2 =>
        have h3 : (c1, p1) ∈ [(c2, ([] : List Char))] := hmem2
        simp only [List.mem_singleton] at h3
        injection h3 with h4 h5
        subst h4
        subst h5
        rfl
      | internal f2 l2 r2 =>
        exact ihl (fun cc ff h => Node.noConfusion h) R c1 p1 q acc hmem2

/-- decode on a tree with an internal root always returns a decoded string
(bits that end mid-code are silently dropped; nothing is ever raised). -/
theorem decodeAux_total : ∀ (bits : List Char) (R cur : Node),
    (∀ cc ff, R ≠ .leaf cc ff) → (∀ cc ff, cur ≠ .leaf cc ff) → ∀ acc : List Char,
    ∃ s, decodeAux R bits cur acc = .ok s := by
  intro bits
  induction bits with
  | nil => intro R cur _ _ acc; exact ⟨acc.reverse, rfl⟩
  | cons bit rest ih =>
    intro R cur hR hcur acc
    cases cur with
    | leaf cc ff => exact absurd rfl (hcur cc ff)
    | internal f l r =>
      show ∃ s, (match (if bit = '0' then l else r) with
        | .leaf c _ => decodeAux R rest R (c :: acc)
        | .internal f1 l1 r1 => decodeAux R rest (.internal f1 l1 r1) acc) = .ok s
      cases hn : (if bit = '0' then l else r) with
      | leaf c ff2 => exact ih R R hR hR (c :: acc)
      | internal f1 l1 r1 => exact ih R _ hR (fun cc ff h => Node.noConfusion h) acc

/-- Decoding the concatenation of the codes of the text's characters
recovers the text (with the already-decoded part as accumulator). -/
theorem decodeAux_join (R : Node) (hR : ∀ cc ff, R ≠ .leaf cc ff)
    (codes : List (Char × List Char))
    (hcodes : ∀ ch p, codes.lookup ch = some p → (ch, p) ∈ codeList R []) :
    ∀ (text bits acc : List Char), joinCodes codes text = .ok bits →
      decodeAux R bits R acc = .ok (acc.reverse ++ text) := by
  intro text
  induction text with
  | nil =>
    intro bits acc h
    have hb : bits = [] := by
      have : Except.ok ([] : List Char) = Except.ok bits := h
      injection this
      simp [*]
    subst hb
    show Except.ok acc.reverse = Except.ok (acc.reverse ++ [])
    rw [List.append_nil]
  | cons ch rest ih =>
    intro bits acc h
    simp only [joinCodes] at h
    cases hl : codes.lookup ch with
    | none => rw [hl] at h; exact absurd h (by simp)
    | some cw =>
      rw [hl] at h
      cases hj : joinCodes codes rest with
      | error e => rw [hj] at h; exact absurd h (by simp)
      | ok bits1 =>
        rw [hj] at h
        simp only at h
        have hb : bits = cw ++ bits1 := by injection h with h'; exact h'.symm
        subst hb
        rw [decode_walk R hR R ch cw bits1 acc (hcodes ch cw hl)]
        rw [ih bits1 (ch :: acc) hj]
        simp

/-! ### Facts connecting build_tree, the code table and the text -/

/-- The leaf characters of the built tree are the distinct characters of
the text (as multisets, hence with no duplicates). -/
theorem build_tree_leafChars {text : List Char} {t : Node} (h : build_tree text = .ok t) :
    (↑(leafChars t) : Multiset Char) = ↑(firstOccs text) := by
  have hl := build_tree_leaves h
  have hmap := congrArg (Multiset.map Prod.fst) hl
  rw [Multiset.map_coe, Multiset.map_coe, counterItems_keys] at hmap
  exact hmap

/-- The leaf characters of the built tree are distinct. -/
theorem build_tree_leafChars_nodup {text : List Char} {t : Node}
    (h : build_tree text = .ok t) : (leafChars t).Nodup := by
  have hc := build_tree_leafChars h
  have hnd : (↑(firstOccs text) : Multiset Char).Nodup :=
    Multiset.coe_nodup.mpr (nodup_firstOccs text)
  rw [← hc] at hnd
  exact Multiset.coe_nodup.mp hnd

/-- Every character of the text appears at a leaf of the built tree. -/
theorem mem_leafChars_of_mem_text {text : List Char} {t : Node}
    (h : build_tree text = .ok t) {ch : Char} (hm : ch ∈ text) : ch ∈ leafChars t := by
  have hc := build_tree_leafChars h
  have h2 : ch ∈ (↑(leafChars t) : Multiset Char) := by
    rw [hc, Multiset.mem_coe]
    exact mem_firstOccs.mpr hm
  exact Multiset.mem_coe.mp h2

/-- Leaf characters are keys of the generated code table. -/
theorem mem_codeList_keys {t : Node} {ch : Char} (h : ch ∈ leafChars t) :
    ch ∈ (codeList t []).map Prod.fst := by
  rw [codeList_keys]
  exact List.mem_reverse.mpr h

/-! ### Instance-state independence of encode (used by C8 and C10) -/

/-- The (bitstring, tree) output of encode does not depend on the contents
of self.codes / self.reverse_codes before the call: generate_codes rewrites
the entry of every character that occurs in the current tree, and encode
only reads those entries. -/
theorem encode_fst_state_irrelevant (st : HState) (text : List Char) :
    (encode st text).1 = (encode initState text).1 := by
  unfold encode
  cases hb : build_tree text with
  | error e => rfl
  | ok tree =>
    have hj : joinCodes (generate_codes st tree []).codes text =
        joinCodes (generate_codes initState tree []).codes text := by
      rw [generate_codes_codes, generate_codes_codes]
      apply joinCodes_congr
      intro ch hch
      have hkey : ch ∈ (codeList tree []).map Prod.fst :=
        mem_codeList_keys (mem_leafChars_of_mem_text hb hch)
      rw [lookup_append_left _ hkey, lookup_append_left _ hkey]
    show (match joinCodes (generate_codes st tree []).codes text with
      | Except.error e => (Except.error e, generate_codes st tree [])
      | Except.ok bits => (Except.ok (bits, tree), generate_codes st tree [])).1 =
      (match joinCodes (generate_codes initState tree []).codes text with
      | Except.error e => (Except.error e, generate_codes initState tree [])
      | Except.ok bits => (Except.ok (bits, tree), generate_codes initState tree [])).1
    rw [hj]
    cases joinCodes (generate_codes initState tree []).codes text with
    | error e => rfl
    | ok bits => rfl

/-- Unfolding encode on a successfully built tree with a successful join. -/
theorem encode_eq (st : HState) {text : List Char} {t : Node} (hb : build_tree text = .ok t)
    {bits : List Char} (hj : joinCodes (codeList t [] ++ st.codes) text = .ok bits) :
    encode st text = (.ok (bits, t), generate_codes st t []) := by
  unfold encode
  rw [hb]
  show (match joinCodes (generate_codes st t []).codes text with
    | Except.error e => (Except.error e, generate_codes st t [])
    | Except.ok bits => (Except.ok (bits, t), generate_codes st t [])) = _
  rw [generate_codes_codes, hj]

/-- Distinct characters have non-prefix codes in any generated codeList. -/
theorem codeList_prefix_free : ∀ (t : Node) {c1 c2 : Char} {p1 p2 : List Char},
    (c1, p1) ∈ codeList t [] → (c2, p2) ∈ codeList t [] → c1 ≠ c2 → ¬ p1 <+: p2 := by
  intro t
  induction t with
  | leaf c f =>
    intro c1 c2 p1 p2 h1 h2 hne
    have h1' : (c1, p1) ∈ [(c, ([] : List Char))] := h1
    have h2' : (c2, p2) ∈ [(c, ([] : List Char))] := h2
    simp only [List.mem_singleton] at h1' h2'
    injection h1' with e1 _
    injection h2' with e2 _
    exact absurd (e1.trans e2.symm) hne
  | internal f l r ihl ihr =>
    intro c1 c2 p1 p2 h1 h2 hne
    have h1' : (c1, p1) ∈ codeList r ['1'] ++ codeList l ['0'] := h1
    have h2' : (c2, p2) ∈ codeList r ['1'] ++ codeList l ['0'] := h2
    rw [codeList_pre r ['1'], codeList_pre l ['0']] at h1' h2'
    rcases List.mem_append.mp h1' with ha | ha <;> rcases List.mem_append.mp h2' with hc | hc
    · obtain ⟨⟨ca, pa⟩, hma, heqa⟩ := List.mem_map.mp ha
      obtain ⟨⟨cc, pc⟩, hmc, heqc⟩ := List.mem_map.mp hc
      have heqa' : (ca, ('1' :: pa : List Char)) = (c1, p1) := heqa
      have heqc' : (cc, ('1' :: pc : List Char)) = (c2, p2) := heqc
      injection heqa' with ea1 ea2
      injection heqc' with ec1 ec2
      subst ea1; subst ea2; subst ec1; subst ec2
      intro hp
      have := (List.cons_prefix_cons.mp hp).2
      exact ihr hma hmc hne this
    · obtain ⟨⟨ca, pa⟩, hma, heqa⟩ := List.mem_map.mp ha
      obtain ⟨⟨cc, pc⟩, hmc, heqc⟩ := List.mem_map.mp hc
      have heqa' : (ca, ('1' :: pa : List Char)) = (c1, p1) := heqa
      have heqc' : (cc, ('0' :: pc : List Char)) = (c2, p2) := heqc
      injection heqa' with ea1 ea2
      injection heqc' with ec1 ec2
      subst ea1; subst ea2; subst ec1; subst ec2
      intro hp
      exact absurd (List.cons_prefix_cons.mp hp).1 (by decide)
    · obtain ⟨⟨ca, pa⟩, hma, heqa⟩ := List.mem_map.mp ha
      obtain ⟨⟨cc, pc⟩, hmc, heqc⟩ := List.mem_map.mp hc
      have heqa' : (ca, ('0' :: pa : List Char)) = (c1, p1) := heqa
      have heqc' : (cc, ('1' :: pc : List Char)) = (c2, p2) := heqc
      injection heqa' with ea1 ea2
      injection heqc' with ec1 ec2
      subst ea1; subst ea2; subst ec1; subst ec2
      intro hp
      exact absurd (List.cons_prefix_cons.mp hp).1 (by decide)
    · obtain ⟨⟨ca, pa⟩, hma, heqa⟩ := List.mem_map.mp ha
      obtain ⟨⟨cc, pc⟩, hmc, heqc⟩ := List.mem_map.mp hc
      have heqa' : (ca, ('0' :: pa : List Char)) = (c1, p1) := heqa
      have heqc' : (cc, ('0' :: pc : List Char)) = (c2, p2) := heqc
      injection heqa' with ea1 ea2
      injection heqc' with ec1 ec2
      subst ea1; subst ea2; subst ec1; subst ec2
      intro hp
      have := (List.cons_prefix_cons.mp hp).2
      exact ihl hma hmc hne this

/-- One decode step from an internal node, with the branch test kept. -/
theorem decodeAux_step (R l r : Node) (f : Nat) (bit : Char) (rest acc : List Char) :
    decodeAux R (bit :: rest) (.internal f l r) acc =
      (match (if bit = '0' then l else r) with
       | .leaf c _ => decodeAux R rest R (c :: acc)
       | .internal f1 l1 r1 => decodeAux R rest (.internal f1 l1 r1) acc) := rfl

/-- Replacing every character other than "0" by "1" in the encoded text
does not change the result of decode: the walk only tests equality with
"0" and treats every other character as "go right". -/
theorem decodeAux_norm : ∀ (bits : List Char) (R cur : Node) (acc : List Char),
    decodeAux R (bits.map (fun c => if c = '0' then '0' else '1')) cur acc =
      decodeAux R bits cur acc := by
  intro bits
  induction bits with
  | nil => intro R cur acc; rfl
  | cons bit rest ih =>
    intro R cur acc
    rw [List.map_cons]
    cases cur with
    | leaf cc ff => rfl
    | internal f l r =>
      rw [decodeAux_step, decodeAux_step]
      have hsc : (if (if bit = '0' then '0' else '1') = '0' then l else r) =
          (if bit = '0' then l else r) := by
        by_cases hb : bit = '0'
        · rw [if_pos hb, if_pos hb, if_pos rfl]
        · rw [if_neg hb, if_neg hb, if_neg (by decide)]
      rw [hsc]
      cases hn : (if bit = '0' then l else r) with
      | leaf c ff => exact ih R R (c :: acc)
      | internal f1 l1 r1 => exact ih R _ acc

/-! ### The claims -/

/-- C1 (counterexample): the round trip fails as stated on the one-letter
input "a": encode produces the empty bitstring (the single symbol gets the
empty code) and decode returns the empty string, not "a". -/
theorem c1_counterexample :
    roundTrip ['a'] = .ok [] ∧ roundTrip ['a'] ≠ .ok ['a'] := by
  constructor
  · rfl
  · intro h
    rw [show roundTrip ['a'] = .ok [] from rfl] at h
    injection h with h'
    exact absurd h' (by simp)

/-- C1 (amended): for every input with at least two distinct symbols,
decoding the bitstring returned by encode against the tree returned by
that same call yields exactly the input. -/
theorem c1_round_trip (text : List Char) (h : 2 ≤ (firstOccs text).length) :
    roundTrip text = .ok text := by
  have hne : text ≠ [] := by
    intro he
    rw [he] at h
    simp [firstOccs] at h
  obtain ⟨t, ht⟩ := build_tree_exists hne
  obtain ⟨f, l, r, hint⟩ := build_tree_root_internal h ht
  have hkeys : ∀ ch ∈ text, ch ∈ (codeList t []).map Prod.fst := fun ch hch =>
    mem_codeList_keys (mem_leafChars_of_mem_text ht hch)
  obtain ⟨bits, hbits⟩ := joinCodes_ok hkeys
  have hj : joinCodes (codeList t [] ++ initState.codes) text = .ok bits := by
    rw [show initState.codes = [] from rfl, List.append_nil]
    exact hbits
  have henc := encode_eq initState ht hj
  unfold roundTrip
  rw [henc]
  show decode bits t = .ok text
  unfold decode
  have hR : ∀ cc ff, t ≠ .leaf cc ff := by
    rw [hint]
    intro cc ff h'
    exact Node.noConfusion h'
  have hcodes : ∀ ch p, (codeList t []).lookup ch = some p → (ch, p) ∈ codeList t [] :=
    fun ch p hl => lookup_mem hl
  have hfin := decodeAux_join t hR (codeList t []) hcodes text bits [] hbits
  simpa using hfin

/-- C1 (witness for the amended claim at the concrete input "ab"). -/
theorem c1_witness :
    2 ≤ (firstOccs ['a', 'b']).length ∧ roundTrip ['a', 'b'] = .ok ['a', 'b'] :=
  ⟨by decide, c1_round_trip ['a', 'b'] (by decide)⟩

/-- C2 (code bug, evaluated): on input "aaaa" the tree is a bare leaf,
generate_codes assigns 'a' the empty code (not length ≥ 1), encode returns
the empty bitstring, and the round trip returns "" instead of "aaaa". -/
theorem c2_single_symbol_bug :
    (generate_codes initState (Node.leaf 'a' 4) []).codes.lookup 'a' = some [] ∧
    (encode initState ['a', 'a', 'a', 'a']).1 = .ok ([], Node.leaf 'a' 4) ∧
    roundTrip ['a', 'a', 'a', 'a'] = .ok [] :=
  ⟨rfl, rfl, rfl⟩

/-- C3 (counterexample): encoding "aabbbcc" gives the 11-bit string
11110001010; dropping its last bit lands mid-code ('c' has the 2-bit code
10), yet decode returns ok "aabbbc" — a silently truncated sequence, not
an error (no MalformedStreamError exists in the code). -/
theorem c3_counterexample :
    (encode initState ['a', 'a', 'b', 'b', 'b', 'c', 'c']).1 =
      .ok (['1', '1', '1', '1', '0', '0', '0', '1', '0', '1', '0'],
        Node.internal 7 (Node.leaf 'b' 3) (Node.internal 4 (Node.leaf 'c' 2) (Node.leaf 'a' 2))) ∧
    (['1', '1', '1', '1', '0', '0', '0', '1', '0', '1'] : List Char) =
      (['1', '1', '1', '1', '0', '0', '0', '1', '0', '1', '0'] : List Char).dropLast ∧
    decode ['1', '1', '1', '1', '0', '0', '0', '1', '0', '1']
      (Node.internal 7 (Node.leaf 'b' 3) (Node.internal 4 (Node.leaf 'c' 2) (Node.leaf 'a' 2))) =
      .ok ['a', 'a', 'b', 'b', 'b', 'c'] :=
  ⟨rfl, rfl, rfl⟩

/-- C3 (amended): decode never reports a malformed stream; on any tree
with an internal root it returns ok for every bit-sequence, silently
dropping a trailing partial code. -/
theorem c3_decode_silent_truncation (f : Nat) (l r : Node) (bits : List Char) :
    ∃ s, decode bits (Node.internal f l r) = .ok s :=
  decodeAux_total bits _ _ (fun cc ff h => Node.noConfusion h)
    (fun cc ff h => Node.noConfusion h) []

/-- C4 (counterexample): encoding the empty text fails with IndexError
(heap[0] on the empty heap) — the generic indexing error, not a distinct
EmptyInputError (no such class exists in the code). -/
theorem c4_counterexample :
    (encode initState []).1 = .error PyErr.indexError ∧
    build_tree [] = .error PyErr.indexError :=
  ⟨rfl, rfl⟩

/-- C4 (amended): on every instance state, encoding the empty sequence
fails with the uncaught IndexError raised by heap[0], leaving the instance
state unchanged. -/
theorem c4_empty_input_index_error (st : HState) :
    encode st [] = (.error PyErr.indexError, st) :=
  rfl

/-- C5 (counterexample): when a symbol of the input has no entry in the
code table consulted by encode's join, the lookup raises the uncaught
generic KeyError — there is no UnknownSymbolError and no boundary check. -/
theorem c5_counterexample :
    joinCodes [('a', ['0'])] ['a', 'b'] = .error PyErr.keyError :=
  rfl

/-- C5 (amended): encode can never hit a missing symbol: it regenerates
the code table from the input's own tree before the join, so whenever
build_tree succeeds, encode succeeds outright (on any instance state). -/
theorem c5_encode_never_key_error (st : HState) (text : List Char) (t : Node)
    (hb : build_tree text = .ok t) : ∃ bits, (encode st text).1 = .ok (bits, t) := by
  have hkeys : ∀ ch ∈ text, ch ∈ (codeList t [] ++ st.codes).map Prod.fst := by
    intro ch hch
    rw [List.map_append]
    exact List.mem_append.mpr (.inl (mem_codeList_keys (mem_leafChars_of_mem_text hb hch)))
  obtain ⟨bits, hbits⟩ := joinCodes_ok hkeys
  exact ⟨bits, by rw [encode_eq st hb hbits]⟩

/-- C5 (witness at the concrete input "ab"). -/
theorem c5_witness :
    build_tree ['a', 'b'] = .ok (Node.internal 2 (Node.leaf 'b' 1) (Node.leaf 'a' 1)) ∧
    ∃ bits, (encode initState ['a', 'b']).1 =
      .ok (bits, Node.internal 2 (Node.leaf 'b' 1) (Node.leaf 'a' 1)) :=
  ⟨rfl, c5_encode_never_key_error initState ['a', 'b'] _ rfl⟩

/-- C6: in the code table generated from a tree built by build_tree, the
code of a symbol is never a prefix of a different symbol's code, and two
distinct symbols never receive the same code. -/
theorem c6_prefix_free (text : List Char) (t : Node) (s1 s2 : Char) (p1 p2 : List Char)
    (hb : build_tree text = .ok t) (hne : s1 ≠ s2)
    (h1 : (generate_codes initState t []).codes.lookup s1 = some p1)
    (h2 : (generate_codes initState t []).codes.lookup s2 = some p2) :
    ¬ p1 <+: p2 ∧ p1 ≠ p2 := by
  rw [generate_codes_codes, show initState.codes = [] from rfl, List.append_nil] at h1 h2
  have hm1 := lookup_mem h1
  have hm2 := lookup_mem h2
  have hpf := codeList_prefix_free t hm1 hm2 hne
  exact ⟨hpf, fun he => hpf (he ▸ List.prefix_refl _)⟩

/-- C6 (witness at the concrete input "ab": codes '1' for 'a', '0' for 'b'). -/
theorem c6_witness :
    build_tree ['a', 'b'] = .ok (Node.internal 2 (Node.leaf 'b' 1) (Node.leaf 'a' 1)) ∧
    (generate_codes initState (Node.internal 2 (Node.leaf 'b' 1) (Node.leaf 'a' 1))
      []).codes.lookup 'a' = some ['1'] ∧
    (generate_codes initState (Node.internal 2 (Node.leaf 'b' 1) (Node.leaf 'a' 1))
      []).codes.lookup 'b' = some ['0'] ∧
    (¬ ['1'] <+: ['0'] ∧ (['1'] : List Char) ≠ ['0']) :=
  ⟨rfl, rfl, rfl,
    c6_prefix_free ['a', 'b'] (Node.internal 2 (Node.leaf 'b' 1) (Node.leaf 'a' 1))
      'a' 'b' ['1'] ['0'] rfl (by decide) rfl rfl⟩

/-- C8: running encode twice on the same input on the same instance (the
second run starting from the instance state the first run left behind)
returns the same (bitstring, tree) pair. -/
theorem c8_deterministic (text : List Char) :
    (encode (encode initState text).2 text).1 = (encode initState text).1 :=
  encode_fst_state_irrelevant ..

/-- C9: decode branches on equality with "0" only — normalising every
non-"0" character of the input to "1" leaves the result unchanged, so any
character other than "0" (e.g. "x") behaves like "1" and the input's
alphabet is never validated. -/
theorem c9_bit_interpretation (tree : Node) (bits : List Char) :
    decode (bits.map (fun c => if c = '0' then '0' else '1')) tree = decode bits tree :=
  decodeAux_norm bits tree tree []

/-! ### Index arithmetic of the array-backed heap -/

/-- The parent index is strictly smaller. -/
theorem par_lt {j : Nat} (h : 0 < j) : par j < j := by
  unfold par; omega

/-- Subtree membership is reflexive. -/
theorem desc_refl (i : Nat) : desc i i := ⟨0, rfl⟩

/-- A subtree member is at least as large as the root index. -/
theorem desc_ge {i j : Nat} (h : desc i j) : i ≤ j := by
  obtain ⟨k, hk⟩ := h
  induction k generalizing j with
  | zero => simp only [Function.iterate_zero_apply] at hk; omega
  | succ k ih =>
    rw [Function.iterate_succ_apply] at hk
    have h1 := ih hk
    have h2 : par j ≤ j := by unfold par; omega
    omega

/-- Children stay in the subtree. -/
theorem desc_child1 {i j : Nat} (h : desc i j) : desc i (2 * j + 1) := by
  obtain ⟨k, hk⟩ := h
  exact ⟨k + 1, by
    rw [Function.iterate_succ_apply, show par (2 * j + 1) = j by unfold par; omega, hk]⟩

/-- Children stay in the subtree. -/
theorem desc_child2 {i j : Nat} (h : desc i j) : desc i (2 * j + 2) := by
  obtain ⟨k, hk⟩ := h
  exact ⟨k + 1, by
    rw [Function.iterate_succ_apply, show par (2 * j + 2) = j by unfold par; omega, hk]⟩

/-- The parent of a proper subtree member stays in the subtree. -/
theorem desc_par {i j : Nat} (h : desc i j) (hne : j ≠ i) : desc i (par j) := by
  obtain ⟨k, hk⟩ := h
  cases k with
  | zero => simp only [Function.iterate_zero_apply] at hk; exact absurd hk hne
  | succ k =>
    rw [Function.iterate_succ_apply] at hk
    exact ⟨k, hk⟩

/-- Every index is in the subtree of the root index 0. -/
theorem desc_zero (j : Nat) : desc 0 j := by
  induction j using Nat.strong_induction_on with
  | _ j ih =>
    rcases Nat.eq_zero_or_pos j with h | h
    · subst h; exact desc_refl 0
    · obtain ⟨k, hk⟩ := ih (par j) (par_lt h)
      exact ⟨k + 1, by rw [Function.iterate_succ_apply, hk]⟩

/-- A proper subtree member is at least the first child index. -/
theorem desc_child_lb {i j : Nat} (h : desc i j) (hne : j ≠ i) : 2 * i + 1 ≤ j := by
  have hp := desc_par h hne
  have h1 := desc_ge hp
  have h2 := desc_ge h
  have hj : 0 < j := by
    rcases Nat.eq_zero_or_pos j with h0 | h0
    · exfalso; omega
    · exact h0
  unfold par at h1
  omega

/-- Subtree membership is transitive. -/
theorem desc_trans {i j k : Nat} (h1 : desc j k) (h2 : desc i j) : desc i k := by
  obtain ⟨a, ha⟩ := h1
  obtain ⟨b, hb⟩ := h2
  exact ⟨b + a, by rw [Function.iterate_add_apply, ha, hb]⟩

/-- Two subtree roots containing a common index are nested. -/
theorem desc_total {i1 i2 j : Nat} (h1 : desc i1 j) (h2 : desc i2 j) :
    desc i1 i2 ∨ desc i2 i1 := by
  obtain ⟨a, ha⟩ := h1
  obtain ⟨b, hb⟩ := h2
  rcases le_total a b with hab | hab
  · obtain ⟨c, rfl⟩ := Nat.exists_eq_add_of_le hab
    right
    refine ⟨c, ?_⟩
    rw [← ha, ← Function.iterate_add_apply]
    rw [Nat.add_comm a c] at hb
    exact hb
  · obtain ⟨c, rfl⟩ := Nat.exists_eq_add_of_le hab
    left
    refine ⟨c, ?_⟩
    rw [← hb, ← Function.iterate_add_apply]
    rw [Nat.add_comm b c] at ha
    exact ha

/-- A position without children in range roots a trivial subHeap. -/
theorem subHeap_of_no_children {hp : List Node} {i : Nat} (h : hp.length ≤ 2 * i + 1) :
    subHeap hp i := by
  intro j hdesc hne hlt
  exfalso
  have := desc_child_lb hdesc hne
  omega

/-- A subtree of a heap-ordered subtree is heap-ordered. -/
theorem subHeap_sub {hp : List Node} {i j : Nat} (hs : subHeap hp i) (hd : desc i j) :
    subHeap hp j := by
  intro k hk hne hlt
  have hik : desc i k := desc_trans hk hd
  have hki : k ≠ i := fun he => by
    have h1 := desc_ge hk
    have h2 := desc_ge hd
    exact hne (by omega)
  exact hs k hik hki hlt

/-- In a heap-ordered subtree the root index holds a minimum. -/
theorem subHeap_root_min {hp : List Node} (hs : subHeap hp 0) :
    ∀ j < hp.length, (hp.getD 0 default).freq ≤ (hp.getD j default).freq := by
  intro j
  induction j using Nat.strong_induction_on with
  | _ j ih =>
    intro hj
    rcases Nat.eq_zero_or_pos j with h0 | h0
    · subst h0; exact le_refl _
    · have hpar := ih (par j) (par_lt h0) (by have := par_lt h0; omega)
      have hstep := hs j (desc_zero j) (by omega) hj
      exact le_trans hpar hstep

/-! ### Closing the hole of a bubble-up -/

/-- Writing newitem into the hole yields a heap-ordered subtree, provided
the walk stopped legitimately (at the subtree root, or below a parent that
is not larger). -/
theorem holeSub_close {hp : List Node} {root hole : Nat} {newitem : Node}
    (H : HoleSub hp root hole newitem) (hdesc : desc root hole) (hlt : hole < hp.length)
    (hstop : hole = root ∨ (hp.getD (par hole) default).freq ≤ newitem.freq) :
    subHeap (hp.set hole newitem) root := by
  intro j hj hne hjlt
  rw [List.length_set] at hjlt
  have hroot_le : root ≤ hole := desc_ge hdesc
  by_cases hjh : j = hole
  · subst hjh
    rcases hstop with h1 | h1
    · exact absurd h1 hne
    · have hj1 : 0 < j := by
        rcases Nat.eq_zero_or_pos j with h0 | h0
        · exfalso; omega
        · exact h0
      rw [getD_set_ne _ _ _ _ _ (Nat.ne_of_gt (par_lt hj1)), getD_set_self _ _ _ _ hlt]
      exact h1
  · by_cases hpj : par j = hole
    · have hj1 : 0 < j := by
        rcases Nat.eq_zero_or_pos j with h0 | h0
        · exfalso
          subst h0
          have : par 0 = 0 := rfl
          rw [this] at hpj
          omega
        · exact h0
      have hchild : j = 2 * hole + 1 ∨ j = 2 * hole + 2 := by
        unfold par at hpj; omega
      have hc := (H.2 j hchild hjlt).1
      rw [getD_set_ne _ _ _ _ _ (fun he => hjh he.symm), hpj, getD_set_self _ _ _ _ hlt]
      exact hc
    · rw [getD_set_ne _ _ _ _ _ (fun he => hpj he.symm),
        getD_set_ne _ _ _ _ _ (fun he => hjh he.symm)]
      exact H.1 j hj hne hjh hjlt

/-- Bubbling newitem up from the hole (heapq._siftdown's loop) restores
heap order on the subtree and touches nothing outside it. -/
theorem siftdownGo_spec (newitem : Node) (root : Nat) :
    ∀ (fuel : Nat) (hp : List Node) (hole : Nat),
    hole < hp.length → desc root hole → hole ≤ fuel →
    HoleSub hp root hole newitem →
    subHeap (siftdownGo newitem root fuel hp hole) root ∧
    (∀ j, ¬ desc root j →
      (siftdownGo newitem root fuel hp hole).getD j default = hp.getD j default) := by
  intro fuel
  induction fuel with
  | zero =>
    intro hp hole hlt hdesc hfuel H
    have h0 : hole = 0 := by omega
    have hr : root = 0 := by have := desc_ge hdesc; omega
    refine ⟨holeSub_close H hdesc hlt (.inl (by omega)), ?_⟩
    intro j hnd
    exact getD_set_ne _ _ _ _ _ (fun he => hnd (he ▸ hdesc))
  | succ fuel ih =>
    intro hp hole hlt hdesc hfuel H
    rw [siftdownGo]
    split
    · next hrh =>
      dsimp only
      rw [show (hole - 1) / 2 = par hole from rfl]
      split
      · next hcomp =>
        set parent := hp.getD (par hole) default with hpar
        have hh1 : 0 < hole := by omega
        have hple : par hole < hole := par_lt hh1
        have hd2 : desc root (par hole) := desc_par hdesc (by omega)
        set hp2 := hp.set hole parent with hhp2
        have hlen2 : hp2.length = hp.length := List.length_set ..
        have hlt2 : par hole < hp2.length := by omega
        have hv_hole : hp2.getD hole default = parent := getD_set_self _ _ _ _ hlt
        have hv_ne : ∀ j, j ≠ hole → hp2.getD j default = hp.getD j default :=
          fun j hj => getD_set_ne _ _ _ _ _ (fun he => hj he.symm)
        have hpc : ∀ c, (c = 2 * par hole + 1 ∨ c = 2 * par hole + 2) → c < hp.length →
            parent.freq ≤ (hp2.getD c default).freq := by
          intro c hc hclen
          by_cases hch : c = hole
          · rw [hch, hv_hole]
          · rw [hv_ne c hch]
            have hcd : desc root c := by
              rcases hc with h | h
              · rw [h]; exact desc_child1 hd2
              · rw [h]; exact desc_child2 hd2
            have hcr : c ≠ root := by
              have := desc_ge hd2
              omega
            have hpar_c : par c = par hole := by
              rcases hc with h | h <;> (rw [h]; unfold par; omega)
            have hcc := H.1 c hcd hcr hch hclen
            rw [hpar_c] at hcc
            exact hcc
        have H2 : HoleSub hp2 root (par hole) newitem := by
          constructor
          · intro j hj hjr hjph hjlen
            rw [hlen2] at hjlen
            by_cases hjh : j = hole
            · subst hjh
              rw [hv_ne _ (Nat.ne_of_lt hple), hv_hole, ← hpar]
            · by_cases hpj : par j = hole
              · have hj1 : 0 < j := by
                  rcases Nat.eq_zero_or_pos j with h0 | h0
                  · exfalso
                    rw [h0] at hpj
                    have hp0 : par 0 = 0 := rfl
                    rw [hp0] at hpj
                    omega
                  · exact h0
                have hchild : j = 2 * hole + 1 ∨ j = 2 * hole + 2 := by
                  unfold par at hpj; omega
                rw [hpj, hv_hole, hv_ne j hjh]
                exact (H.2 j hchild hjlen).2 (by omega)
              · rw [hv_ne _ hpj, hv_ne j hjh]
                exact H.1 j hj hjr hjh hjlen
          · intro c hc hclen
            rw [hlen2] at hclen
            refine ⟨le_trans (le_of_lt hcomp) (hpc c hc hclen), ?_⟩
            intro hner
            have hpp_ne : par (par hole) ≠ hole := by
              have h2 : par (par hole) ≤ par hole := by unfold par; omega
              omega
            rw [hv_ne _ hpp_ne]
            have hstep := H.1 (par hole) hd2 hner (by omega) (by omega)
            exact le_trans hstep (hpc c hc hclen)
        have hrec := ih hp2 (par hole) hlt2 hd2 (by omega) H2
        refine ⟨hrec.1, ?_⟩
        intro j hnd
        rw [hrec.2 j hnd]
        exact hv_ne j (fun he => hnd (he ▸ hdesc))
      · next hcomp =>
        refine ⟨holeSub_close H hdesc hlt (.inr (le_of_not_lt hcomp)), ?_⟩
        intro j hnd
        exact getD_set_ne _ _ _ _ _ (fun he => hnd (he ▸ hdesc))
    · next hrh =>
      have hge := desc_ge hdesc
      refine ⟨holeSub_close H hdesc hlt (.inl (by omega)), ?_⟩
      intro j hnd
      exact getD_set_ne _ _ _ _ _ (fun he => hnd (he ▸ hdesc))

/-- A proper member of the subtree at i lies in one of the two child
subtrees. -/
theorem desc_step {i j : Nat} (h : desc i j) (hne : j ≠ i) :
    desc (2 * i + 1) j ∨ desc (2 * i + 2) j := by
  induction j using Nat.strong_induction_on with
  | _ j ih =>
    have hj1 : 0 < j := by
      have := desc_child_lb h hne
      omega
    have hpar := desc_par h hne
    by_cases hpi : par j = i
    · have hchild : j = 2 * i + 1 ∨ j = 2 * i + 2 := by
        unfold par at hpi; omega
      rcases hchild with rfl | rfl
      · exact .inl (desc_refl _)
      · exact .inr (desc_refl _)
    · have hrec := ih (par j) (par_lt hj1) hpar hpi
      have hjc : j = 2 * par j + 1 ∨ j = 2 * par j + 2 := by
        unfold par; omega
      rcases hrec with hl | hl
      · refine .inl ?_
        rcases hjc with hj | hj
        · rw [hj]; exact desc_child1 hl
        · rw [hj]; exact desc_child2 hl
      · refine .inr ?_
        rcases hjc with hj | hj
        · rw [hj]; exact desc_child1 hl
        · rw [hj]; exact desc_child2 hl

/-- The descent loop of _siftup: starting from a position whose strict
subtree pairs are heap-ordered (the two child subtrees are heaps), it
returns a childless position of the subtree such that every pair away from
that position is heap-ordered, and positions outside the subtree are
untouched. -/
theorem siftupLoop_spec (root : Nat) :
    ∀ (fuel endpos : Nat) (hp : List Node) (pos : Nat),
    endpos = hp.length → pos < hp.length → desc root pos → endpos - pos ≤ fuel →
    (∀ j, desc root j → j ≠ root → j ≠ pos → par j ≠ pos → j < hp.length →
      (hp.getD (par j) default).freq ≤ (hp.getD j default).freq) →
    (pos ≠ root → ∀ c, (c = 2 * pos + 1 ∨ c = 2 * pos + 2) → c < hp.length →
      (hp.getD (par pos) default).freq ≤ (hp.getD c default).freq) →
    desc root (siftupLoop endpos fuel hp pos).2 ∧
    (siftupLoop endpos fuel hp pos).2 < hp.length ∧
    hp.length ≤ 2 * (siftupLoop endpos fuel hp pos).2 + 1 ∧
    (∀ j, desc root j → j ≠ root → j ≠ (siftupLoop endpos fuel hp pos).2 →
      j < hp.length →
      ((siftupLoop endpos fuel hp pos).1.getD (par j) default).freq ≤
        ((siftupLoop endpos fuel hp pos).1.getD j default).freq) ∧
    (∀ j, ¬ desc root j →
      (siftupLoop endpos fuel hp pos).1.getD j default = hp.getD j default) := by
  intro fuel
  induction fuel with
  | zero =>
    intro endpos hp pos hend hpos hdesc hfuel h1 h2
    exfalso
    omega
  | succ fuel ih =>
    intro endpos hp pos hend hpos hdesc hfuel h1 h2
    rw [siftupLoop]
    split
    · next hcl =>
      dsimp only
      set cp := if 2 * pos + 2 < endpos ∧
          ¬ (hp.getD (2 * pos + 1) default).freq < (hp.getD (2 * pos + 2) default).freq
        then 2 * pos + 2 else 2 * pos + 1 with hcp
      have hcp_or : cp = 2 * pos + 1 ∨ cp = 2 * pos + 2 := by
        rw [hcp]; split
        · exact .inr rfl
        · exact .inl rfl
      have hcpb : pos < cp ∧ cp < endpos := by
        rw [hcp]; split <;> omega
      have hmin : ∀ s, (s = 2 * pos + 1 ∨ s = 2 * pos + 2) → s < endpos →
          (hp.getD cp default).freq ≤ (hp.getD s default).freq := by
        rw [hcp]
        split
        · next hcond =>
          intro s hs hslen
          rcases hs with rfl | rfl
          · exact le_of_not_lt hcond.2
          · exact le_refl _
        · next hcond =>
          intro s hs hslen
          rcases hs with rfl | rfl
          · exact le_refl _
          · have hlr := not_and.mp hcond hslen
            rw [not_not] at hlr
            exact le_of_lt hlr
      set C := hp.getD cp default with hC
      set hp2 := hp.set pos C with hhp2
      have hlen2 : hp2.length = hp.length := List.length_set ..
      have hv_pos : hp2.getD pos default = C := getD_set_self _ _ _ _ hpos
      have hv_ne : ∀ j, j ≠ pos → hp2.getD j default = hp.getD j default :=
        fun j hj => getD_set_ne _ _ _ _ _ (fun he => hj he.symm)
      have hdesc_cp : desc root cp := by
        rcases hcp_or with h | h
        · rw [h]; exact desc_child1 hdesc
        · rw [h]; exact desc_child2 hdesc
      have hpar_cp : par cp = pos := by
        rcases hcp_or with h | h <;> (rw [h]; unfold par; omega)
      have hnew1 : ∀ j, desc root j → j ≠ root → j ≠ cp → par j ≠ cp → j < hp2.length →
          (hp2.getD (par j) default).freq ≤ (hp2.getD j default).freq := by
        intro j hj hjr hjcp hpjcp hjlen
        rw [hlen2] at hjlen
        by_cases hjp : j = pos
        · have hpr : pos ≠ root := hjp ▸ hjr
          have hpos1 : 0 < pos := by
            have := desc_child_lb hdesc hpr
            omega
          rw [hjp, hv_ne _ (Nat.ne_of_lt (par_lt hpos1)), hv_pos, hC]
          exact h2 hpr cp hcp_or (by omega)
        · by_cases hpjp : par j = pos
          · have hj1 : 0 < j := by
              rcases Nat.eq_zero_or_pos j with h0 | h0
              · exfalso
                rw [h0] at hpjp
                have hp0 : par 0 = 0 := rfl
                rw [hp0] at hpjp
                exact hjp (by omega)
              · exact h0
            have hchild : j = 2 * pos + 1 ∨ j = 2 * pos + 2 := by
              unfold par at hpjp; omega
            rw [hpjp, hv_pos, hv_ne j hjp, hC]
            exact hmin j hchild (by omega)
          · rw [hv_ne _ hpjp, hv_ne j hjp]
            exact h1 j hj hjr hjp hpjp hjlen
      have hnew2 : cp ≠ root → ∀ c, (c = 2 * cp + 1 ∨ c = 2 * cp + 2) → c < hp2.length →
          (hp2.getD (par cp) default).freq ≤ (hp2.getD c default).freq := by
        intro hcpr c hc hclen
        rw [hlen2] at hclen
        have hcpos : pos < c := by rcases hc with h | h <;> omega
        have hcne : c ≠ pos := by omega
        rw [hpar_cp, hv_pos, hv_ne c hcne, hC]
        have hcd : desc root c := by
          rcases hc with h | h
          · rw [h]; exact desc_child1 hdesc_cp
          · rw [h]; exact desc_child2 hdesc_cp
        have hcr : c ≠ root := by
          have := desc_ge hdesc
          omega
        have hpc : par c = cp := by
          rcases hc with h | h <;> (rw [h]; unfold par; omega)
        have hcc := h1 c hcd hcr hcne (by rw [hpc]; omega) hclen
        rw [hpc] at hcc
        exact hcc
      have hIH := ih endpos hp2 cp (by rw [hlen2]; exact hend)
        (by rw [hlen2]; omega) hdesc_cp (by omega) hnew1 hnew2
      rw [hlen2] at hIH
      refine ⟨hIH.1, hIH.2.1, hIH.2.2.1, hIH.2.2.2.1, ?_⟩
      intro j hnd
      rw [hIH.2.2.2.2 j hnd]
      exact hv_ne j (fun he => hnd (he ▸ hdesc))
    · next hcl =>
      refine ⟨hdesc, hpos, by omega, ?_, fun j _ => rfl⟩
      intro j hj hjr hjp hjlen
      by_cases hpjp : par j = pos
      · exfalso
        have hj1 : 0 < j := by
          rcases Nat.eq_zero_or_pos j with h0 | h0
          · exfalso
            rw [h0] at hpjp
            have hp0 : par 0 = 0 := rfl
            rw [hp0] at hpjp
            have := desc_ge hdesc
            omega
          · exact h0
        have : j = 2 * pos + 1 ∨ j = 2 * pos + 2 := by
          unfold par at hpjp; omega
        omega
      · exact h1 j hj hjr hjp hpjp hjlen

/-- heapq._siftup restores heap order at position i provided the two
child subtrees are heap-ordered, and touches nothing outside the subtree
of i. -/
theorem siftup_subHeap (hp : List Node) (i : Nat) (hi : i < hp.length)
    (hl : subHeap hp (2 * i + 1)) (hr : subHeap hp (2 * i + 2)) :
    subHeap (siftup hp i) i ∧
    (∀ j, ¬ desc i j → (siftup hp i).getD j default = hp.getD j default) := by
  have heq : siftup hp i =
      siftdown ((siftupLoop hp.length hp.length hp i).1.set
        (siftupLoop hp.length hp.length hp i).2 (hp.getD i default)) i
        (siftupLoop hp.length hp.length hp i).2 := rfl
  have h1 : ∀ j, desc i j → j ≠ i → j ≠ i → par j ≠ i → j < hp.length →
      (hp.getD (par j) default).freq ≤ (hp.getD j default).freq := by
    intro j hj hji _ hpj hjlen
    rcases desc_step hj hji with hs | hs
    · have hne1 : j ≠ 2 * i + 1 := fun he => hpj (by rw [he]; unfold par; omega)
      exact hl j hs hne1 hjlen
    · have hne2 : j ≠ 2 * i + 2 := fun he => hpj (by rw [he]; unfold par; omega)
      exact hr j hs hne2 hjlen
  have hspec := siftupLoop_spec i hp.length hp.length hp i rfl hi (desc_refl i)
    (by omega) h1 (fun hii => absurd rfl hii)
  set L := siftupLoop hp.length hp.length hp i with hL
  obtain ⟨hd2, hlt2, hnoc, hpairs, huntouched⟩ := hspec
  set newitem := hp.getD i default with hni
  set hp2 := L.1.set L.2 newitem with hhp2
  have hlenL : L.1.length = hp.length := length_siftupLoop ..
  have hlen2 : hp2.length = hp.length := by rw [hhp2, List.length_set, hlenL]
  have hlt2a : L.2 < L.1.length := by omega
  have hv_hole : hp2.getD L.2 default = newitem := getD_set_self _ _ _ _ hlt2a
  have hv_ne : ∀ j, j ≠ L.2 → hp2.getD j default = L.1.getD j default :=
    fun j hj => getD_set_ne _ _ _ _ _ (fun he => hj he.symm)
  have H : HoleSub hp2 i L.2 newitem := by
    constructor
    · intro j hj hjr hjh hjlen
      rw [hlen2] at hjlen
      have hpj : par j ≠ L.2 := by
        intro he
        have hj1 : 0 < j := by
          rcases Nat.eq_zero_or_pos j with h0 | h0
          · exfalso
            rw [h0] at he
            have hp0 : par 0 = 0 := rfl
            rw [hp0] at he
            omega
          · exact h0
        have : j = 2 * L.2 + 1 ∨ j = 2 * L.2 + 2 := by unfold par at he; omega
        omega
      rw [hv_ne _ hpj, hv_ne j hjh]
      exact hpairs j hj hjr hjh hjlen
    · intro c hc hclen
      exfalso
      rw [hlen2] at hclen
      rcases hc with h | h <;> omega
  have hsd := siftdownGo_spec newitem i L.2 hp2 L.2 (by omega) hd2 (le_refl _) H
  rw [heq]
  show subHeap (siftdown hp2 i L.2) i ∧
    (∀ j, ¬ desc i j → (siftdown hp2 i L.2).getD j default = hp.getD j default)
  unfold siftdown
  rw [hv_hole]
  refine ⟨hsd.1, ?_⟩
  intro j hnd
  rw [hsd.2 j hnd, hv_ne j (fun he => hnd (he ▸ hd2))]
  exact huntouched j hnd

/-- Reading inside the left part of an append. -/
theorem getD_append_left2 (l l2 : List Node) (j : Nat) (d : Node) (h : j < l.length) :
    (l ++ l2).getD j d = l.getD j d := by
  induction l generalizing j with
  | nil => simp at h
  | cons a t ih =>
    cases j with
    | zero => rfl
    | succ n => exact ih n (by simpa using h)

/-- Every list member is read at some valid index. -/
theorem mem_getD (l : List Node) (d : Node) :
    ∀ y ∈ l, ∃ i, i < l.length ∧ l.getD i d = y := by
  intro y hy
  induction l with
  | nil => simp at hy
  | cons a t ih =>
    rcases List.mem_cons.mp hy with h | h
    · exact ⟨0, by simp, h.symm⟩
    · obtain ⟨i, hi, hv⟩ := ih h
      exact ⟨i + 1, by simpa using hi, hv⟩

/-- The heapify loop makes every subtree heap-ordered, given that the
subtrees at indices not yet processed already are. -/
theorem heapifyAux_subHeap : ∀ (k : Nat) (hp : List Node), k ≤ hp.length →
    (∀ m, k ≤ m → subHeap hp m) → ∀ m, subHeap (heapifyAux hp k) m := by
  intro k
  induction k with
  | zero => intro hp _ hpre m; exact hpre m (Nat.zero_le m)
  | succ k ih =>
    intro hp hk hpre m
    show subHeap (heapifyAux (siftup hp k) k) m
    have hki : k < hp.length := by omega
    have hs := siftup_subHeap hp k hki (hpre _ (by omega)) (hpre _ (by omega))
    apply ih (siftup hp k) (by rw [length_siftup]; omega)
    intro m2 hm2
    by_cases hdm : desc k m2
    · exact subHeap_sub hs.1 hdm
    · intro j hj hjne hjlen
      rw [length_siftup] at hjlen
      have hm2ne : m2 ≠ k := fun he => hdm (he ▸ desc_refl k)
      have hjk : ¬ desc k j := by
        intro hdj
        rcases desc_total hj hdj with hc | hc
        · have := desc_ge hc
          omega
        · exact hdm hc
      have hdpj : desc m2 (par j) := desc_par hj hjne
      have hpjk : ¬ desc k (par j) := by
        intro hdp
        have hjp : desc (par j) j := ⟨1, by rw [Function.iterate_one]⟩
        exact hjk (desc_trans hjp hdp)
      rw [hs.2 j hjk, hs.2 (par j) hpjk]
      exact hpre m2 (by omega) j hj hjne hjlen

/-- heapq.heapify produces a heap-ordered list. -/
theorem heapify_subHeap (hp : List Node) : subHeap (heapify hp) 0 := by
  unfold heapify
  apply heapifyAux_subHeap (hp.length / 2) hp (Nat.div_le_self ..) ?_ 0
  intro m hm
  exact subHeap_of_no_children (by omega)

/-- heapq.heappush preserves heap order. -/
theorem heappush_subHeap {hp : List Node} (hs : subHeap hp 0) (x : Node) :
    subHeap (heappush hp x) 0 := by
  unfold heappush
  dsimp only
  unfold siftdown
  have hlen : (hp ++ [x]).length = hp.length + 1 := by simp
  rw [show (hp ++ [x]).length - 1 = hp.length by omega, getD_concat_self]
  have H : HoleSub (hp ++ [x]) 0 hp.length x := by
    constructor
    · intro j hj hjr hjh hjlen
      rw [hlen] at hjlen
      have hjlt : j < hp.length := by omega
      have hj1 : 0 < j := by omega
      have hpjlt : par j < hp.length := by
        have := par_lt hj1
        omega
      rw [getD_append_left2 _ _ _ _ hjlt, getD_append_left2 _ _ _ _ hpjlt]
      exact hs j hj hjr hjlt
    · intro c hc hclen
      exfalso
      rw [hlen] at hclen
      rcases hc with h | h <;> omega
  exact (siftdownGo_spec x 0 hp.length (hp ++ [x]) hp.length (by omega)
    (desc_zero _) (le_refl _) H).1

/-- heapq.heappop returns a minimum-freq element and leaves a heap-ordered
rest. -/
theorem heappop_spec {heap : List Node} {x : Node} {h2 : List Node}
    (hpop : heappop heap = some (x, h2)) (hs : subHeap heap 0) :
    subHeap h2 0 ∧ (∀ y ∈ heap, x.freq ≤ y.freq) := by
  have hx0 : x = heap.getD 0 default ∧ subHeap h2 0 := by
    unfold heappop at hpop
    cases hl : heap.getLast? with
    | none => rw [hl] at hpop; exact absurd hpop (by simp)
    | some lastelt =>
      rw [hl] at hpop
      have hne : heap ≠ [] := by rintro rfl; simp at hl
      have hlast : heap.getLast hne = lastelt := by
        have hgl := List.getLast?_eq_getLast heap hne
        rw [hl] at hgl; exact (Option.some_inj.mp hgl).symm
      have hsplit : heap.dropLast ++ [lastelt] = heap := by
        rw [← hlast]; exact List.dropLast_append_getLast hne
      cases hd : heap.dropLast with
      | nil =>
        rw [hd] at hpop hsplit
        cases hpop
        constructor
        · rw [← hsplit]; rfl
        · intro j hj hjne hjlen
          simp at hjlen
      | cons r0 rest =>
        rw [hd] at hpop hsplit
        have hpq := Option.some_inj.mp hpop
        have hx : r0 = x := congrArg Prod.fst hpq
        have hh2 : siftup (lastelt :: rest) 0 = h2 := congrArg Prod.snd hpq
        subst hx
        subst hh2
        have hheap : heap = r0 :: (rest ++ [lastelt]) := by rw [← hsplit]; rfl
        constructor
        · rw [hheap]; rfl
        · -- h2 = siftup (lastelt :: rest) 0
          have hlenheap : heap.length = rest.length + 2 := by rw [hheap]; simp
          have hvals : ∀ j, 1 ≤ j → j ≤ rest.length →
              (lastelt :: rest).getD j default = heap.getD j default := by
            intro j h1j hjr
            obtain ⟨n, rfl⟩ : ∃ n, j = n + 1 := ⟨j - 1, by omega⟩
            rw [hheap]
            show rest.getD n default = (rest ++ [lastelt]).getD n default
            rw [getD_append_left2 _ _ _ _ (by omega)]
          have hchild : ∀ i0 : Nat, 0 < i0 → subHeap (lastelt :: rest) i0 := by
            intro i0 hi0 j hj hjne hjlen
            simp only [List.length_cons] at hjlen
            have hjge : 2 * i0 + 1 ≤ j := desc_child_lb hj hjne
            have hj1 : 1 ≤ j := by omega
            have hpj1 : 1 ≤ par j := by
              unfold par; omega
            rw [hvals j hj1 (by omega), hvals (par j) hpj1 (by have := par_lt (by omega : 0 < j); omega)]
            exact hs j (desc_zero j) (by omega) (by omega)
          have hsp := siftup_subHeap (lastelt :: rest) 0 (by simp) (hchild 1 (by omega))
            (hchild 2 (by omega))
          exact hsp.1
  refine ⟨hx0.2, ?_⟩
  intro y hy
  obtain ⟨i, hi, hv⟩ := mem_getD heap default y hy
  rw [hx0.1, ← hv]
  exact subHeap_root_min hs i hi

/-- A terminating run of the merge loop on a heap-ordered forest is a
Merges run: every iteration pops two minimum-freq members. -/
theorem buildLoop_merges (fuel : Nat) : ∀ (heap : List Node) (t : Node),
    subHeap heap 0 → buildLoop fuel heap = [t] → Merges ↑heap t := by
  induction fuel with
  | zero =>
    intro heap t hs hb
    rw [show buildLoop 0 heap = heap from rfl] at hb
    subst hb
    show Merges ↑[t] t
    rw [Multiset.coe_singleton]
    exact Merges.single t
  | succ fuel ih =>
    intro heap t hs hb
    rw [buildLoop] at hb
    by_cases hlen : 1 < heap.length
    · rw [if_pos hlen] at hb
      cases hp1 : heappop heap with
      | none =>
        exact absurd (heappop_none hp1) (by
          intro he
          rw [he] at hlen
          simp at hlen)
      | some p1 =>
        obtain ⟨a, heap1⟩ := p1
        rw [hp1] at hb
        have hb1 : (match heappop heap1 with
          | some (right, heap2) =>
            buildLoop fuel (heappush heap2 (Node.internal (a.freq + right.freq) a right))
          | none => []) = [t] := hb
        cases hp2 : heappop heap1 with
        | none =>
          exfalso
          have h0 := heappop_none hp2
          have hl1 : heap1.length + 1 = heap.length := length_heappop hp1
          rw [h0] at hl1
          simp at hl1
          omega
        | some p2 =>
          obtain ⟨b, heap2⟩ := p2
          rw [hp2] at hb1
          have hb2 : buildLoop fuel
            (heappush heap2 (Node.internal (a.freq + b.freq) a b)) = [t] := hb1
          have hperm1 := perm_heappop hp1
          have hperm2 := perm_heappop hp2
          have hspec1 := heappop_spec hp1 hs
          have hspec2 := heappop_spec hp2 hspec1.1
          have hpush : subHeap (heappush heap2 (Node.internal (a.freq + b.freq) a b)) 0 :=
            heappush_subHeap hspec2.1 _
          have hrec := ih _ t hpush hb2
          rw [perm_heappush] at hrec
          have ha : a ∈ (↑heap : Multiset Node) := by
            rw [hperm1]; exact Multiset.mem_cons_self ..
          have herase : (↑heap : Multiset Node).erase a = ↑heap1 := by
            rw [hperm1]; exact Multiset.erase_cons_head ..
          have hbmem : b ∈ (↑heap : Multiset Node).erase a := by
            rw [herase, hperm2]; exact Multiset.mem_cons_self ..
          have hmina : ∀ x ∈ (↑heap : Multiset Node), a.freq ≤ x.freq := fun x hx =>
            hspec1.2 x (Multiset.mem_coe.mp hx)
          have hminb : ∀ x ∈ (↑heap : Multiset Node).erase a, b.freq ≤ x.freq := by
            intro x hx
            rw [herase] at hx
            exact hspec2.2 x (Multiset.mem_coe.mp hx)
          have hrec2 : Merges (Node.internal (a.freq + b.freq) a b ::ₘ
              ((↑heap : Multiset Node).erase a).erase b) t := by
            rw [herase, hperm2, Multiset.erase_cons_head]
            exact hrec
          exact Merges.step ha hbmem hmina hminb hrec2
    · rw [if_neg hlen] at hb
      subst hb
      show Merges ↑[t] t
      rw [Multiset.coe_singleton]
      exact Merges.single t

/-- build_tree performs a greedy minimum-merge run over the initial leaf
forest. -/
theorem build_tree_merges {text : List Char} {t : Node} (h : build_tree text = .ok t) :
    Merges ↑((counterItems text).map (fun p => Node.leaf p.1 p.2)) t := by
  unfold build_tree at h
  dsimp only at h
  by_cases h0 : (counterItems text).map (fun p => Node.leaf p.1 p.2) = []
  · rw [h0] at h
    rw [show heapify [] = [] from rfl, buildLoop_nil] at h
    exact absurd h (by simp)
  · have hlen0 : 0 < ((counterItems text).map (fun p => Node.leaf p.1 p.2)).length :=
      List.length_pos.mpr h0
    have hlen : 0 < (heapify ((counterItems text).map (fun p => Node.leaf p.1 p.2))).length := by
      rw [length_heapify]; exact hlen0
    obtain ⟨t0, ht0⟩ := buildLoop_ok
      (heapify ((counterItems text).map (fun p => Node.leaf p.1 p.2))).length
      (heapify ((counterItems text).map (fun p => Node.leaf p.1 p.2))) hlen (by omega)
    rw [ht0] at h
    have hte : t0 = t := by injection h
    subst hte
    have hm := buildLoop_merges _ _ t0 (heapify_subHeap _) ht0
    rw [perm_heapify] at hm
    exact hm

/-! ### Weights, weighted path length, cost vectors -/

/-- The weight of a leaf is its frequency. -/
theorem wt_leaf (c : Char) (f : Nat) : wt (Node.leaf c f) = f := by
  unfold wt leaves
  simp

/-- The weight of an internal node is the sum of its children's. -/
theorem wt_internal (f : Nat) (l r : Node) :
    wt (Node.internal f l r) = wt l + wt r := by
  unfold wt
  show ((leaves l ++ leaves r).map Prod.snd).sum = _
  rw [List.map_append, List.sum_append]

/-- Leaves carry their weight in the freq field. -/
theorem freqWf_leaf (c : Char) (f : Nat) : FreqWf (Node.leaf c f) := by
  unfold FreqWf
  rw [wt_leaf]
  rfl

/-- The merge performed by build_tree keeps the freq field equal to the
weight. -/
theorem freqWf_node {a b : Node} (ha : FreqWf a) (hb : FreqWf b) :
    FreqWf (Node.internal (a.freq + b.freq) a b) := by
  unfold FreqWf at *
  rw [wt_internal, ← ha, ← hb]
  rfl

/-- vecCost over a cons. -/
theorem vecCost_cons (p : Node × Nat) (D : Multiset (Node × Nat)) :
    vecCost (p ::ₘ D) = (wpl p.1 + wt p.1 * p.2) + vecCost D := by
  unfold vecCost
  rw [Multiset.map_cons, Multiset.sum_cons]

/-- kraftSum over a cons. -/
theorem kraftSum_cons (B : Nat) (p : Node × Nat) (D : Multiset (Node × Nat)) :
    kraftSum B (p ::ₘ D) = 2 ^ (B - p.2) + kraftSum B D := by
  unfold kraftSum
  rw [Multiset.map_cons, Multiset.sum_cons]

/-- The sup of a nonempty multiset of naturals is attained. -/
theorem multiset_sup_mem {s : Multiset Nat} (h : s ≠ 0) : s.sup ∈ s := by
  induction s using Multiset.induction_on with
  | empty => exact absurd rfl h
  | cons a t ih =>
    rw [Multiset.sup_cons]
    by_cases ht : t = 0
    · subst ht
      simp
    · rcases le_total t.sup a with hle | hle
      · rw [sup_eq_left.mpr hle]
        exact Multiset.mem_cons_self ..
      · rw [sup_eq_right.mpr hle]
        exact Multiset.mem_cons_of_mem (ih ht)

/-- Parity of the normalised Kraft sum: only depth-dm entries contribute
odd terms. -/
theorem sum_pow_mod_two (dm : Nat) : ∀ (D : Multiset (Node × Nat)), (∀ p ∈ D, p.2 ≤ dm) →
    (D.map (fun p => 2 ^ (dm - p.2))).sum % 2 =
      Multiset.card (D.filter (fun p => p.2 = dm)) % 2 := by
  intro D
  induction D using Multiset.induction_on with
  | empty => intro _; rfl
  | cons a t ih =>
    intro hb
    rw [Multiset.map_cons, Multiset.sum_cons]
    have iht := ih (fun p hp => hb p (Multiset.mem_cons_of_mem hp))
    by_cases ha : a.2 = dm
    · rw [Multiset.filter_cons, if_pos ha, Multiset.singleton_add, Multiset.card_cons]
      rw [ha, Nat.sub_self, pow_zero]
      omega
    · have hlt : a.2 < dm := lt_of_le_of_ne (hb a (Multiset.mem_cons_self ..)) ha
      rw [Multiset.filter_cons, if_neg ha, zero_add]
      have heven : 2 ^ (dm - a.2) % 2 = 0 := by
        obtain ⟨k, hk⟩ : ∃ k, dm - a.2 = k + 1 := ⟨dm - a.2 - 1, by omega⟩
        rw [hk, pow_succ]
        omega
      omega

/-- The Kraft sum factors through a bound dm on all depths. -/
theorem kraftSum_factor (B dm : Nat) (hdmB : dm ≤ B) (D : Multiset (Node × Nat))
    (hb : ∀ p ∈ D, p.2 ≤ dm) :
    kraftSum B D = 2 ^ (B - dm) * (D.map (fun p => 2 ^ (dm - p.2))).sum := by
  unfold kraftSum
  rw [← Multiset.sum_map_mul_left]
  apply congrArg Multiset.sum
  apply Multiset.map_congr rfl
  intro p hp
  rw [← pow_add]
  congr 1
  have := hb p hp
  omega

/-- A Kraft-tight assignment with at least two entries has its maximal
depth dm ≥ 1 attained at least twice. -/
theorem exists_two_max (B : Nat) (D : Multiset (Node × Nat)) (hcard : 2 ≤ Multiset.card D)
    (hble : ∀ p ∈ D, p.2 ≤ B) (hk : kraftSum B D = 2 ^ B) :
    ∃ dm u1 u2 R, D = (u1, dm) ::ₘ (u2, dm) ::ₘ R ∧ (∀ p ∈ D, p.2 ≤ dm) ∧ 1 ≤ dm := by
  set dm := (D.map Prod.snd).sup with hdm
  have hD0 : D ≠ 0 := by
    intro h
    rw [h] at hcard
    simp at hcard
  have hbledm : ∀ p ∈ D, p.2 ≤ dm :=
    fun p hp => Multiset.le_sup (Multiset.mem_map_of_mem _ hp)
  have hdmB : dm ≤ B := by
    apply Multiset.sup_le.mpr
    intro d hd
    obtain ⟨p, hp, rfl⟩ := Multiset.mem_map.mp hd
    exact hble p hp
  have hS : (D.map (fun p => 2 ^ (dm - p.2))).sum = 2 ^ dm := by
    have hf := kraftSum_factor B dm hdmB D hbledm
    rw [hk] at hf
    have h2 : (2 : Nat) ^ B = 2 ^ (B - dm) * 2 ^ dm := by
      rw [← pow_add]
      congr 1
      omega
    rw [h2] at hf
    have hpos : 0 < (2 : Nat) ^ (B - dm) := Nat.pow_pos (by omega)
    exact (Nat.eq_of_mul_eq_mul_left hpos hf).symm
  have hdm1 : 1 ≤ dm := by
    by_contra hdm0
    have hdm0e : dm = 0 := by omega
    have hone : D.map (fun p => 2 ^ (dm - p.2)) = D.map (fun _ => 1) := by
      apply Multiset.map_congr rfl
      intro p hp
      have := hbledm p hp
      rw [hdm0e] at this ⊢
      have hp0 : p.2 = 0 := by omega
      rw [hp0]
      simp
    rw [hone] at hS
    have hcrd : (D.map (fun _ => (1 : Nat))).sum = Multiset.card D := by
      simp
    rw [hcrd, hdm0e, pow_zero] at hS
    omega
  have hmem : ∃ p ∈ D, p.2 = dm := by
    have hsupmem : dm ∈ D.map Prod.snd := multiset_sup_mem (by
      intro h0
      exact hD0 (Multiset.map_eq_zero.mp h0))
    obtain ⟨p, hp, hpd⟩ := Multiset.mem_map.mp hsupmem
    exact ⟨p, hp, hpd⟩
  have hpar := sum_pow_mod_two dm D hbledm
  rw [hS] at hpar
  have h2dm : (2 : Nat) ^ dm % 2 = 0 := by
    obtain ⟨k, hk2⟩ : ∃ k, dm = k + 1 := ⟨dm - 1, by omega⟩
    rw [hk2, pow_succ]
    omega
  obtain ⟨p1, hp1D, hp1d⟩ := hmem
  have hfsplit : D.filter (fun p => p.2 = dm) =
      p1 ::ₘ (D.erase p1).filter (fun p => p.2 = dm) := by
    conv_lhs => rw [← Multiset.cons_erase hp1D]
    rw [Multiset.filter_cons, if_pos hp1d, Multiset.singleton_add]
  have hfcard1 : 1 ≤ Multiset.card ((D.erase p1).filter (fun p => p.2 = dm)) := by
    have hc := hpar
    rw [hfsplit, Multiset.card_cons] at hc
    omega
  have hmem2 : ∃ p2 ∈ D.erase p1, p2.2 = dm := by
    have hne : (D.erase p1).filter (fun p => p.2 = dm) ≠ 0 := by
      intro h0
      rw [h0] at hfcard1
      simp at hfcard1
    obtain ⟨p2, hp2⟩ := Multiset.exists_mem_of_ne_zero hne
    have := Multiset.mem_filter.mp hp2
    exact ⟨p2, this.1, this.2⟩
  obtain ⟨p2, hp2D, hp2d⟩ := hmem2
  refine ⟨dm, p1.1, p2.1, (D.erase p1).erase p2, ?_, hbledm, hdm1⟩
  have he1 : (p1.1, dm) = p1 := by rw [← hp1d]
  have he2 : (p2.1, dm) = p2 := by rw [← hp2d]
  rw [he1, he2, Multiset.cons_erase hp2D, Multiset.cons_erase hp1D]

/-- Moving a minimum-weight tree to a maximal-depth slot of a depth
assignment never increases the cost. -/
theorem swap_to_max (D : Multiset (Node × Nat)) (a : Node) (dm : Nat)
    (ha : a ∈ D.map Prod.fst)
    (hble : ∀ p ∈ D, p.2 ≤ dm)
    (hmax : ∃ p ∈ D, p.2 = dm)
    (hmin : ∀ u ∈ D.map Prod.fst, wt a ≤ wt u) :
    ∃ R, R.map Prod.fst = (D.map Prod.fst).erase a ∧
      ((a, dm) ::ₘ R).map Prod.snd = D.map Prod.snd ∧
      vecCost ((a, dm) ::ₘ R) ≤ vecCost D := by
  by_cases hadm : (a, dm) ∈ D
  · have hD : D = (a, dm) ::ₘ D.erase (a, dm) := (Multiset.cons_erase hadm).symm
    refine ⟨D.erase (a, dm), ?_, ?_, le_of_eq ?_⟩
    · conv_rhs => rw [hD]
      rw [Multiset.map_cons, Multiset.erase_cons_head]
    · conv_rhs => rw [hD]
    · conv_rhs => rw [hD]
  · obtain ⟨da, hda⟩ : ∃ da, (a, da) ∈ D := by
      obtain ⟨p, hp, hpa⟩ := Multiset.mem_map.mp ha
      refine ⟨p.2, ?_⟩
      rw [← hpa]
      exact hp
    obtain ⟨pv, hpvD, hpvd⟩ := hmax
    have hvD : (pv.1, dm) ∈ D := by
      rw [← hpvd]
      exact hpvD
    have hne : (pv.1, dm) ≠ (a, da) := by
      intro he
      apply hadm
      have h1 : pv.1 = a := congrArg Prod.fst he
      rw [← h1]
      exact hvD
    have hvD2 : (pv.1, dm) ∈ D.erase (a, da) := (Multiset.mem_erase_of_ne hne).mpr hvD
    set R0 := (D.erase (a, da)).erase (pv.1, dm) with hR0
    have hD : D = (a, da) ::ₘ (pv.1, dm) ::ₘ R0 := by
      rw [hR0, Multiset.cons_erase hvD2, Multiset.cons_erase hda]
    have hvmem : pv.1 ∈ D.map Prod.fst := Multiset.mem_map_of_mem _ hpvD
    have hdadm : da ≤ dm := hble (a, da) hda
    refine ⟨(pv.1, da) ::ₘ R0, ?_, ?_, ?_⟩
    · rw [hD, Multiset.map_cons, Multiset.map_cons, Multiset.map_cons]
      show pv.1 ::ₘ R0.map Prod.fst = (a ::ₘ pv.1 ::ₘ R0.map Prod.fst).erase a
      rw [Multiset.erase_cons_head]
    · rw [hD, Multiset.map_cons, Multiset.map_cons, Multiset.map_cons, Multiset.map_cons]
      exact Multiset.cons_swap ..
    · rw [hD, vecCost_cons, vecCost_cons, vecCost_cons, vecCost_cons]
      have hsw := mul_add_mul_le_mul_add_mul (hmin pv.1 hvmem) hdadm
      dsimp only
      omega

/-- Greedy lower bound: the weighted path length of any tree produced by
a run of minimum-pair merges is at most the cost of any Kraft-tight depth
assignment to the starting forest. -/
theorem merges_lower_bound {F : Multiset Node} {t : Node} (hM : Merges F t) :
    ∀ (B : Nat) (D : Multiset (Node × Nat)),
    D.map Prod.fst = F → (∀ u ∈ F, FreqWf u) → (∀ p ∈ D, p.2 ≤ B) →
    kraftSum B D = 2 ^ B → wpl t ≤ vecCost D := by
  induction hM with
  | single t0 =>
    intro B D hfst hwf hble hk
    have hcard : Multiset.card D = 1 := by
      have hc := congrArg Multiset.card hfst
      rw [Multiset.card_map] at hc
      rw [hc]
      rfl
    obtain ⟨p, hp⟩ := Multiset.card_eq_one.mp hcard
    subst hp
    have hpt : p.1 = t0 := by
      have h1 := hfst
      rw [Multiset.map_singleton] at h1
      exact Multiset.singleton_inj.mp h1
    have hk2 : 2 ^ (B - p.2) = 2 ^ B := by
      unfold kraftSum at hk
      rw [Multiset.map_singleton, Multiset.sum_singleton] at hk
      exact hk
    have hd0 : p.2 = 0 := by
      have hble2 := hble p (Multiset.mem_singleton_self p)
      have hinj := Nat.pow_right_injective (le_refl 2) hk2
      omega
    unfold vecCost
    rw [Multiset.map_singleton, Multiset.sum_singleton, hpt, hd0]
    simp
  | step ha hb mina minb hrec ih =>
    rename_i F a b t
    intro B D hfst hwf hble hk
    have hwfa : FreqWf a := hwf a ha
    have hwfb : FreqWf b := hwf b (Multiset.mem_of_mem_erase hb)
    have hminwt_a : ∀ u ∈ D.map Prod.fst, wt a ≤ wt u := by
      intro u hu
      rw [hfst] at hu
      have hfr := mina u hu
      have hwfu := hwf u hu
      unfold FreqWf at hwfa hwfu
      omega
    have hcard2 : 2 ≤ Multiset.card D := by
      have hc := congrArg Multiset.card hfst
      rw [Multiset.card_map] at hc
      have h1 : 0 < Multiset.card (F.erase a) := Multiset.card_pos.mpr (by
        intro h0
        rw [h0] at hb
        simp at hb)
      have h2 : Multiset.card (F.erase a) = Multiset.card F - 1 := by
        rw [Multiset.card_erase_of_mem ha]
        rfl
      have h3 : 0 < Multiset.card F := Multiset.card_pos.mpr (by
        intro h0
        rw [h0] at ha
        simp at ha)
      omega
    obtain ⟨dm, u1, u2, R, hDeq, hbledm, hdm1⟩ := exists_two_max B D hcard2 hble hk
    have haD : a ∈ D.map Prod.fst := by
      rw [hfst]
      exact ha
    obtain ⟨R1, hR1fst, hR1snd, hR1cost⟩ :=
      swap_to_max D a dm haD hbledm
        ⟨(u1, dm), by rw [hDeq]; exact Multiset.mem_cons_self .., rfl⟩ hminwt_a
    have hcount : 2 ≤ Multiset.count dm (D.map Prod.snd) := by
      rw [hDeq, Multiset.map_cons, Multiset.map_cons]
      rw [Multiset.count_cons_self, Multiset.count_cons_self]
      omega
    have hcount1 : 1 ≤ Multiset.count dm (R1.map Prod.snd) := by
      have hsnd := hR1snd
      rw [Multiset.map_cons] at hsnd
      have hc := congrArg (Multiset.count dm) hsnd
      rw [Multiset.count_cons_self] at hc
      omega
    have hmemR1 : ∃ p ∈ R1, p.2 = dm := by
      have hdmem : dm ∈ R1.map Prod.snd := Multiset.count_pos.mp (by omega)
      obtain ⟨p, hp, hpd⟩ := Multiset.mem_map.mp hdmem
      exact ⟨p, hp, hpd⟩
    have hbR1 : b ∈ R1.map Prod.fst := by
      rw [hR1fst, hfst]
      exact hb
    have hminwt_b : ∀ u ∈ R1.map Prod.fst, wt b ≤ wt u := by
      intro u hu
      rw [hR1fst, hfst] at hu
      have hfr := minb u hu
      have hwfu := hwf u (Multiset.mem_of_mem_erase hu)
      unfold FreqWf at hwfb hwfu
      omega
    have hbleR1 : ∀ p ∈ R1, p.2 ≤ dm := by
      intro p hp
      have hpm : p.2 ∈ D.map Prod.snd := by
        rw [← hR1snd, Multiset.map_cons]
        exact Multiset.mem_cons_of_mem (Multiset.mem_map_of_mem _ hp)
      obtain ⟨q, hq, hqd⟩ := Multiset.mem_map.mp hpm
      rw [← hqd]
      exact hbledm q hq
    obtain ⟨R2, hR2fst, hR2snd, hR2cost⟩ :=
      swap_to_max R1 b dm hbR1 hbleR1 hmemR1 hminwt_b
    have hD3snd : ((a, dm) ::ₘ (b, dm) ::ₘ R2).map Prod.snd = D.map Prod.snd := by
      rw [Multiset.map_cons, Multiset.map_cons]
      rw [← hR1snd, Multiset.map_cons]
      congr 1
      rw [← hR2snd, Multiset.map_cons]
    have hDpfst : ((Node.internal (a.freq + b.freq) a b, dm - 1) ::ₘ R2).map Prod.fst =
        Node.internal (a.freq + b.freq) a b ::ₘ (F.erase a).erase b := by
      rw [Multiset.map_cons]
      congr 1
      rw [hR2fst, hR1fst, hfst]
    have hwfp : ∀ u ∈ (Node.internal (a.freq + b.freq) a b ::ₘ (F.erase a).erase b),
        FreqWf u := by
      intro u hu
      rcases Multiset.mem_cons.mp hu with h | h
      · rw [h]
        exact freqWf_node hwfa hwfb
      · exact hwf u (Multiset.mem_of_mem_erase (Multiset.mem_of_mem_erase h))
    have hdmB : dm ≤ B := by
      have hdmem : dm ∈ D.map Prod.snd := by
        rw [hDeq, Multiset.map_cons]
        exact Multiset.mem_cons_self ..
      obtain ⟨q, hq, hqd⟩ := Multiset.mem_map.mp hdmem
      rw [← hqd]
      exact hble q hq
    have hbleDp : ∀ p ∈ ((Node.internal (a.freq + b.freq) a b, dm - 1) ::ₘ R2),
        p.2 ≤ B := by
      intro p hp
      rcases Multiset.mem_cons.mp hp with h | h
      · rw [h]
        show dm - 1 ≤ B
        omega
      · have hpm : p.2 ∈ D.map Prod.snd := by
          rw [← hD3snd, Multiset.map_cons, Multiset.map_cons]
          exact Multiset.mem_cons_of_mem
            (Multiset.mem_cons_of_mem (Multiset.mem_map_of_mem _ h))
        obtain ⟨q, hq, hqd⟩ := Multiset.mem_map.mp hpm
        rw [← hqd]
        exact hble q hq
    have hkD3 : kraftSum B ((a, dm) ::ₘ (b, dm) ::ₘ R2) = 2 ^ B := by
      have hmm : kraftSum B ((a, dm) ::ₘ (b, dm) ::ₘ R2) = kraftSum B D := by
        unfold kraftSum
        rw [show (fun p : Node × Nat => 2 ^ (B - p.2)) =
          (fun d => 2 ^ (B - d)) ∘ Prod.snd from rfl]
        rw [← Multiset.map_map, ← Multiset.map_map, hD3snd]
      rw [hmm, hk]
    have hkDp : kraftSum B ((Node.internal (a.freq + b.freq) a b, dm - 1) ::ₘ R2) =
        2 ^ B := by
      rw [kraftSum_cons]
      rw [← hkD3, kraftSum_cons, kraftSum_cons]
      have hBe : B - (dm - 1) = (B - dm) + 1 := by omega
      show 2 ^ (B - (dm - 1)) + kraftSum B R2 = _
      rw [hBe, pow_succ]
      dsimp only
      omega
    have hwtnd : wt (Node.internal (a.freq + b.freq) a b) = wt a + wt b :=
      wt_internal ..
    have hwplnd : wpl (Node.internal (a.freq + b.freq) a b) =
        wpl a + wpl b + wt a + wt b := rfl
    have hcost : vecCost ((Node.internal (a.freq + b.freq) a b, dm - 1) ::ₘ R2) =
        vecCost ((a, dm) ::ₘ (b, dm) ::ₘ R2) := by
      rw [vecCost_cons, vecCost_cons, vecCost_cons]
      show wpl (Node.internal (a.freq + b.freq) a b) +
        wt (Node.internal (a.freq + b.freq) a b) * (dm - 1) + vecCost R2 = _
      rw [hwtnd, hwplnd]
      obtain ⟨m, rfl⟩ : ∃ m, dm = m + 1 := ⟨dm - 1, by omega⟩
      have hm1 : m + 1 - 1 = m := rfl
      rw [hm1]
      ring
    have hcostD3 : vecCost ((a, dm) ::ₘ (b, dm) ::ₘ R2) ≤ vecCost D := by
      rw [vecCost_cons]
      have h2 := hR2cost
      have h1 := hR1cost
      rw [vecCost_cons] at h1
      dsimp only at h1 ⊢
      omega
    have hIH := ih B ((Node.internal (a.freq + b.freq) a b, dm - 1) ::ₘ R2)
      hDpfst hwfp hbleDp hkDp
    calc wpl t ≤ vecCost ((Node.internal (a.freq + b.freq) a b, dm - 1) ::ₘ R2) := hIH
      _ = vecCost ((a, dm) ::ₘ (b, dm) ::ₘ R2) := hcost
      _ ≤ vecCost D := hcostD3

/-! ### The Kraft inequality for binary prefix-free code word lists -/

/-- Stripping an expected head succeeds exactly on words with that head. -/
theorem tailAfter_eq_some {b : Char} : ∀ {w u : List Char},
    tailAfter b w = some u → w = b :: u := by
  intro w u h
  cases w with
  | nil => exact absurd h (by rw [tailAfter]; exact Option.noConfusion)
  | cons x v =>
    rw [tailAfter] at h
    by_cases hx : x = b
    · rw [if_pos hx] at h
      rw [hx, Option.some_inj.mp h]
    · rw [if_neg hx] at h
      exact absurd h (by exact Option.noConfusion)

/-- Pairwise relations survive filterMap when the relation transfers along
the partial map. -/
theorem pairwise_filterMap_of {g : List Char → Option (List Char)}
    {R S : List Char → List Char → Prop}
    (h : ∀ a b a2 b2, g a = some a2 → g b = some b2 → R a b → S a2 b2) :
    ∀ {l : List (List Char)}, List.Pairwise R l → List.Pairwise S (l.filterMap g) := by
  intro l hl
  induction hl with
  | nil => exact List.Pairwise.nil
  | cons hr hp ih =>
    rename_i a l2
    rw [List.filterMap_cons]
    cases hg : g a with
    | none => exact ih
    | some b =>
      refine List.Pairwise.cons ?_ ih
      intro b2 hb2
      obtain ⟨a2, ha2, hga2⟩ := List.mem_filterMap.mp hb2
      exact h a a2 b b2 hg hga2 (hr a2 ha2)

/-- Splitting a sum over binary words by leading bit. -/
theorem kraft_split (f : List Char → Nat) : ∀ (ws : List (List Char)),
    (∀ w ∈ ws, ∃ u, w = '0' :: u ∨ w = '1' :: u) →
    (ws.map f).sum =
      ((ws.filterMap (tailAfter '0')).map (fun u => f ('0' :: u))).sum +
      ((ws.filterMap (tailAfter '1')).map (fun u => f ('1' :: u))).sum := by
  intro ws
  induction ws with
  | nil => intro _; rfl
  | cons w rest ih =>
    intro hall
    have ihr := ih (fun w2 hw2 => hall w2 (List.mem_cons_of_mem _ hw2))
    obtain ⟨u, hu⟩ := hall w (List.mem_cons_self ..)
    rw [List.map_cons, List.sum_cons]
    rcases hu with hu | hu
    · subst hu
      have h0 : tailAfter '0' ('0' :: u) = some u := by rw [tailAfter, if_pos rfl]
      have h1 : tailAfter '1' ('0' :: u) = none := by
        rw [tailAfter, if_neg (by decide)]
      have hf0 : (('0' :: u) :: rest).filterMap (tailAfter '0') =
          u :: rest.filterMap (tailAfter '0') := by
        rw [List.filterMap_cons, h0]
      have hf1 : (('0' :: u) :: rest).filterMap (tailAfter '1') =
          rest.filterMap (tailAfter '1') := by
        rw [List.filterMap_cons, h1]
      rw [hf0, hf1, List.map_cons, List.sum_cons]
      omega
    · subst hu
      have h0 : tailAfter '0' ('1' :: u) = none := by
        rw [tailAfter, if_neg (by decide)]
      have h1 : tailAfter '1' ('1' :: u) = some u := by rw [tailAfter, if_pos rfl]
      have hf0 : (('1' :: u) :: rest).filterMap (tailAfter '0') =
          rest.filterMap (tailAfter '0') := by
        rw [List.filterMap_cons, h0]
      have hf1 : (('1' :: u) :: rest).filterMap (tailAfter '1') =
          u :: rest.filterMap (tailAfter '1') := by
        rw [List.filterMap_cons, h1]
      rw [hf0, hf1, List.map_cons, List.sum_cons]
      omega

/-- Cons respects the prefix order. -/
theorem cons_prefix_of_prefix (x : Char) {p q : List Char} (hpq : p <+: q) :
    x :: p <+: x :: q := by
  obtain ⟨tl, htl⟩ := hpq
  exact ⟨tl, by rw [List.cons_append, htl]⟩

/-- The Kraft inequality: a pairwise non-prefix list of binary words of
length at most B has normalised Kraft sum at most 2 ^ B. -/
theorem kraft_ineq : ∀ (B : Nat) (ws : List (List Char)),
    (∀ w ∈ ws, w.length ≤ B) →
    (∀ w ∈ ws, ∀ x ∈ w, x = '0' ∨ x = '1') →
    List.Pairwise (fun u v => ¬ u <+: v ∧ ¬ v <+: u) ws →
    (ws.map (fun w => 2 ^ (B - w.length))).sum ≤ 2 ^ B := by
  intro B
  induction B with
  | zero =>
    intro ws hlen hbin hpw
    cases ws with
    | nil => simp
    | cons w1 rest =>
      cases rest with
      | nil =>
        rw [List.map_cons, List.map_nil, List.sum_cons, List.sum_nil]
        simp
      | cons w2 rest2 =>
        exfalso
        have hl1 : w1.length ≤ 0 := hlen w1 (List.mem_cons_self ..)
        have hw1 : w1 = [] := List.eq_nil_of_length_eq_zero (by omega)
        have hr := (List.pairwise_cons.mp hpw).1 w2 (List.mem_cons_self ..)
        exact hr.1 (by rw [hw1]; exact List.nil_prefix ..)
  | succ B ih =>
    intro ws hlen hbin hpw
    by_cases hnil : [] ∈ ws
    · have hws : ws = [[]] := by
        cases ws with
        | nil => simp at hnil
        | cons w1 rest =>
          rcases List.mem_cons.mp hnil with h | h
          · subst h
            cases rest with
            | nil => rfl
            | cons w2 rest2 =>
              exfalso
              have hr := (List.pairwise_cons.mp hpw).1 w2 (List.mem_cons_self ..)
              exact hr.1 (List.nil_prefix ..)
          · exfalso
            have hr := (List.pairwise_cons.mp hpw).1 [] h
            exact hr.2 (List.nil_prefix ..)
      subst hws
      simp
    · have hall : ∀ w ∈ ws, ∃ u, w = '0' :: u ∨ w = '1' :: u := by
        intro w hw
        cases w with
        | nil => exact absurd hw hnil
        | cons x u =>
          rcases hbin (x :: u) hw x (List.mem_cons_self ..) with hx | hx
          · exact ⟨u, Or.inl (by rw [hx])⟩
          · exact ⟨u, Or.inr (by rw [hx])⟩
      rw [kraft_split (fun w => 2 ^ (B + 1 - w.length)) ws hall]
      have hmem0 : ∀ u ∈ ws.filterMap (tailAfter '0'), ('0' :: u) ∈ ws := by
        intro u hu
        obtain ⟨w, hw, hgw⟩ := List.mem_filterMap.mp hu
        rw [← tailAfter_eq_some hgw]
        exact hw
      have hmem1 : ∀ u ∈ ws.filterMap (tailAfter '1'), ('1' :: u) ∈ ws := by
        intro u hu
        obtain ⟨w, hw, hgw⟩ := List.mem_filterMap.mp hu
        rw [← tailAfter_eq_some hgw]
        exact hw
      have htransfer : ∀ (b : Char) (a a' a2 b2 : List Char),
          tailAfter b a = some a2 → tailAfter b a' = some b2 →
          (¬ a <+: a' ∧ ¬ a' <+: a) → (¬ a2 <+: b2 ∧ ¬ b2 <+: a2) := by
        intro b a a' a2 b2 hga hgb hr
        constructor
        · intro hp
          apply hr.1
          rw [tailAfter_eq_some hga, tailAfter_eq_some hgb]
          exact cons_prefix_of_prefix b hp
        · intro hp
          apply hr.2
          rw [tailAfter_eq_some hga, tailAfter_eq_some hgb]
          exact cons_prefix_of_prefix b hp
      have h0 := ih (ws.filterMap (tailAfter '0'))
        (by
          intro u hu
          have := hlen ('0' :: u) (hmem0 u hu)
          rw [List.length_cons] at this
          omega)
        (by
          intro u hu x hx
          exact hbin ('0' :: u) (hmem0 u hu) x (List.mem_cons_of_mem _ hx))
        (pairwise_filterMap_of (htransfer '0') hpw)
      have h1 := ih (ws.filterMap (tailAfter '1'))
        (by
          intro u hu
          have := hlen ('1' :: u) (hmem1 u hu)
          rw [List.length_cons] at this
          omega)
        (by
          intro u hu x hx
          exact hbin ('1' :: u) (hmem1 u hu) x (List.mem_cons_of_mem _ hx))
        (pairwise_filterMap_of (htransfer '1') hpw)
      have hmap0 : (ws.filterMap (tailAfter '0')).map
            (fun u => 2 ^ (B + 1 - ('0' :: u).length)) =
          (ws.filterMap (tailAfter '0')).map (fun u => 2 ^ (B - u.length)) := by
        apply List.map_congr_left
        intro u hu
        congr 1
        rw [List.length_cons]
        omega
      have hmap1 : (ws.filterMap (tailAfter '1')).map
            (fun u => 2 ^ (B + 1 - ('1' :: u).length)) =
          (ws.filterMap (tailAfter '1')).map (fun u => 2 ^ (B - u.length)) := by
        apply List.map_congr_left
        intro u hu
        congr 1
        rw [List.length_cons]
        omega
      rw [hmap0, hmap1]
      have hBp : (2 : Nat) ^ (B + 1) = 2 ^ B + 2 ^ B := by
        rw [pow_succ]
        omega
      omega

/-- Any sub-feasible depth assignment can be deepened into a Kraft-tight
one over the same trees without increasing the cost. -/
theorem tighten : ∀ (n B : Nat) (D : Multiset (Node × Nat)),
    (D.map Prod.snd).sum ≤ n → D ≠ 0 →
    (∀ p ∈ D, p.2 ≤ B) → kraftSum B D ≤ 2 ^ B →
    ∃ E, E.map Prod.fst = D.map Prod.fst ∧ (∀ p ∈ E, p.2 ≤ B) ∧
      kraftSum B E = 2 ^ B ∧ vecCost E ≤ vecCost D := by
  intro n
  induction n with
  | zero =>
    intro B D hsum hne hble hk
    refine ⟨D, rfl, hble, ?_, le_refl _⟩
    have hall0 : ∀ p ∈ D, p.2 = 0 := by
      intro p hp
      have hm : p.2 ∈ D.map Prod.snd := Multiset.mem_map_of_mem _ hp
      have := Multiset.single_le_sum (fun x _ => Nat.zero_le x) _ hm
      omega
    have hconst : D.map (fun p => 2 ^ (B - p.2)) = D.map (fun _ => 2 ^ B) := by
      apply Multiset.map_congr rfl
      intro p hp
      rw [hall0 p hp, Nat.sub_zero]
    have hcard1 : 1 ≤ Multiset.card D := by
      rw [Nat.one_le_iff_ne_zero, Ne, Multiset.card_eq_zero]
      exact hne
    unfold kraftSum at hk ⊢
    rw [hconst] at hk ⊢
    have hsum2 : (D.map (fun _ => (2 : Nat) ^ B)).sum = Multiset.card D * 2 ^ B := by
      simp [mul_comm]
    rw [hsum2] at hk ⊢
    have hBpos : 0 < (2 : Nat) ^ B := Nat.pow_pos (by omega)
    have hc1 : Multiset.card D = 1 := by
      by_contra hc
      have h2 : 2 ≤ Multiset.card D := by omega
      have := Nat.mul_le_mul_right (2 ^ B) h2
      omega
    rw [hc1, one_mul]
  | succ n ih =>
    intro B D hsum hne hble hk
    by_cases heq : kraftSum B D = 2 ^ B
    · exact ⟨D, rfl, hble, heq, le_refl _⟩
    · have hlt : kraftSum B D < 2 ^ B := lt_of_le_of_ne hk heq
      set dm := (D.map Prod.snd).sup with hdm
      have hbledm : ∀ p ∈ D, p.2 ≤ dm :=
        fun p hp => Multiset.le_sup (Multiset.mem_map_of_mem _ hp)
      have hsup : dm ∈ D.map Prod.snd := multiset_sup_mem (by
        intro h0
        exact hne (Multiset.map_eq_zero.mp h0))
      obtain ⟨p, hpD, hpd⟩ := Multiset.mem_map.mp hsup
      have hcard1 : 1 ≤ Multiset.card D := by
        rw [Nat.one_le_iff_ne_zero, Ne, Multiset.card_eq_zero]
        exact hne
      have hdm1 : 1 ≤ dm := by
        by_contra h0
        have hdm0 : dm = 0 := by omega
        have hconst : D.map (fun q => 2 ^ (B - q.2)) = D.map (fun _ => 2 ^ B) := by
          apply Multiset.map_congr rfl
          intro q hq
          have hq2 := hbledm q hq
          have hq0 : q.2 = 0 := by omega
          rw [hq0, Nat.sub_zero]
        unfold kraftSum at hlt
        rw [hconst] at hlt
        have hsum2 : (D.map (fun _ => (2 : Nat) ^ B)).sum = Multiset.card D * 2 ^ B := by
          simp [mul_comm]
        rw [hsum2] at hlt
        have := Nat.mul_le_mul_right (2 ^ B) hcard1
        omega
      have hdmB : dm ≤ B := by
        rw [← hpd]
        exact hble p hpD
      have hdvd : (2 : Nat) ^ (B - dm) ∣ kraftSum B D := by
        unfold kraftSum
        apply Multiset.dvd_sum
        intro x hx
        obtain ⟨q, hq, rfl⟩ := Multiset.mem_map.mp hx
        apply pow_dvd_pow
        have := hbledm q hq
        omega
      have hdvdB : (2 : Nat) ^ (B - dm) ∣ 2 ^ B := pow_dvd_pow 2 (by omega)
      have hslack : kraftSum B D + 2 ^ (B - dm) ≤ 2 ^ B := by
        obtain ⟨k1, hk1⟩ := hdvd
        obtain ⟨k2, hk2⟩ := hdvdB
        rw [hk1, hk2]
        rw [hk1, hk2] at hlt
        have hppos : 0 < (2 : Nat) ^ (B - dm) := Nat.pow_pos (by omega)
        have hk12 : k1 < k2 := by
          by_contra hge
          push_neg at hge
          have := Nat.mul_le_mul_left (2 ^ (B - dm)) hge
          omega
        have hstep : 2 ^ (B - dm) * k1 + 2 ^ (B - dm) * 1 ≤ 2 ^ (B - dm) * k2 := by
          rw [← Nat.mul_add]
          exact Nat.mul_le_mul_left _ (by omega)
        omega
      have hDe : D = p ::ₘ D.erase p := (Multiset.cons_erase hpD).symm
      have hsum2 : (((p.1, dm - 1) ::ₘ D.erase p).map Prod.snd).sum ≤ n := by
        have hs : (D.map Prod.snd).sum = dm + ((D.erase p).map Prod.snd).sum := by
          conv_lhs => rw [hDe]
          rw [Multiset.map_cons, Multiset.sum_cons, hpd]
        rw [Multiset.map_cons, Multiset.sum_cons]
        dsimp only
        omega
      have hne2 : ((p.1, dm - 1) ::ₘ D.erase p) ≠ 0 := Multiset.cons_ne_zero
      have hble2 : ∀ q ∈ ((p.1, dm - 1) ::ₘ D.erase p), q.2 ≤ B := by
        intro q hq
        rcases Multiset.mem_cons.mp hq with h | h
        · rw [h]
          show dm - 1 ≤ B
          omega
        · exact hble q (Multiset.mem_of_mem_erase h)
      have hk2 : kraftSum B ((p.1, dm - 1) ::ₘ D.erase p) ≤ 2 ^ B := by
        rw [kraftSum_cons]
        have hkD : kraftSum B D = 2 ^ (B - dm) + kraftSum B (D.erase p) := by
          conv_lhs => rw [hDe]
          rw [kraftSum_cons, hpd]
        have hBe : B - (dm - 1) = (B - dm) + 1 := by omega
        dsimp only
        rw [hBe, pow_succ]
        omega
      obtain ⟨E, hEfst, hEble, hEk, hEcost⟩ :=
        ih B ((p.1, dm - 1) ::ₘ D.erase p) hsum2 hne2 hble2 hk2
      refine ⟨E, ?_, hEble, hEk, ?_⟩
      · rw [hEfst, Multiset.map_cons]
        conv_rhs => rw [hDe, Multiset.map_cons]
      · refine le_trans hEcost ?_
        rw [vecCost_cons]
        conv_rhs => rw [hDe, vecCost_cons]
        dsimp only
        have hmono : wt p.1 * (dm - 1) ≤ wt p.1 * p.2 := by
          apply Nat.mul_le_mul_left
          omega
        omega

/-- Every node has at least one leaf. -/
theorem leaves_ne_nil : ∀ (t : Node), leaves t ≠ [] := by
  intro t
  induction t with
  | leaf c f => simp [leaves]
  | internal f l r ihl ihr =>
    show leaves l ++ leaves r ≠ []
    simp [ihl]

/-- A member of a list of naturals is at most its sum. -/
theorem mem_le_list_sum {l : List Nat} {a : Nat} (h : a ∈ l) : a ≤ l.sum := by
  induction l with
  | nil => simp at h
  | cons b rest ih =>
    rw [List.sum_cons]
    rcases List.mem_cons.mp h with rfl | h1
    · omega
    · have := ih h1
      omega

/-- The greedy lower bound instantiated at the leaf forest of build_tree:
the weighted path length of the built tree is at most the cost of any
binary prefix code for the text. -/
theorem huffman_lower_bound {text : List Char} {t : Node} (h : build_tree text = .ok t)
    {cw : Char → List Char} (hcw : SpecBinaryPrefixCode cw text) :
    wpl t ≤ codeCost cw text := by
  have hM := build_tree_merges h
  have hwf : ∀ u ∈ (↑((counterItems text).map (fun p => Node.leaf p.1 p.2)) :
      Multiset Node), FreqWf u := by
    intro u hu
    obtain ⟨p, hp, rfl⟩ := List.mem_map.mp (Multiset.mem_coe.mp hu)
    exact freqWf_leaf p.1 p.2
  have hfst : ((↑((counterItems text).map
        (fun p => (Node.leaf p.1 p.2, (cw p.1).length)))) : Multiset (Node × Nat)).map
        Prod.fst =
      ↑((counterItems text).map (fun p => Node.leaf p.1 p.2)) := by
    rw [Multiset.map_coe, List.map_map]
    rfl
  have hkeymem : ∀ p ∈ counterItems text, p.1 ∈ firstOccs text := by
    intro p hp
    rw [← counterItems_keys]
    exact List.mem_map_of_mem _ hp
  have hble : ∀ q ∈ ((↑((counterItems text).map
        (fun p => (Node.leaf p.1 p.2, (cw p.1).length)))) : Multiset (Node × Nat)),
      q.2 ≤ ((firstOccs text).map (fun c => (cw c).length)).sum := by
    intro q hq
    obtain ⟨p, hp, rfl⟩ := List.mem_map.mp (Multiset.mem_coe.mp hq)
    exact mem_le_list_sum (List.mem_map_of_mem _ (hkeymem p hp))
  have hkraft : kraftSum (((firstOccs text).map (fun c => (cw c).length)).sum)
      (↑((counterItems text).map (fun p => (Node.leaf p.1 p.2, (cw p.1).length)))) ≤
      2 ^ (((firstOccs text).map (fun c => (cw c).length)).sum) := by
    unfold kraftSum
    rw [Multiset.map_coe, Multiset.sum_coe, List.map_map]
    have hrw : (counterItems text).map
        ((fun q : Node × Nat =>
          2 ^ (((firstOccs text).map (fun c => (cw c).length)).sum - q.2)) ∘
          (fun p => (Node.leaf p.1 p.2, (cw p.1).length))) =
        ((firstOccs text).map cw).map
          (fun w => 2 ^ (((firstOccs text).map (fun c => (cw c).length)).sum - w.length)) := by
      unfold counterItems
      rw [List.map_map, List.map_map]
      rfl
    rw [hrw]
    apply kraft_ineq
    · intro w hw
      obtain ⟨c, hc, rfl⟩ := List.mem_map.mp hw
      exact mem_le_list_sum (List.mem_map_of_mem _ hc)
    · intro w hw
      obtain ⟨c, hc, rfl⟩ := List.mem_map.mp hw
      exact hcw.1 c hc
    · apply List.pairwise_map.mpr
      apply List.Pairwise.imp_of_mem ?_ (nodup_firstOccs text)
      intro c1 c2 h1 h2 hne
      exact ⟨hcw.2 c1 h1 c2 h2 hne, hcw.2 c2 h2 c1 h1 (Ne.symm hne)⟩
  have hne0 : ((↑((counterItems text).map
      (fun p => (Node.leaf p.1 p.2, (cw p.1).length)))) : Multiset (Node × Nat)) ≠ 0 := by
    intro h0
    have hci : (counterItems text).map
        (fun p => (Node.leaf p.1 p.2, (cw p.1).length)) = [] :=
      (Multiset.coe_eq_zero _).mp h0
    have hci2 : counterItems text = [] := List.map_eq_nil_iff.mp hci
    have hlv := build_tree_leaves h
    rw [hci2] at hlv
    exact leaves_ne_nil t ((Multiset.coe_eq_coe.mp hlv).eq_nil)
  obtain ⟨E, hEfst, hEble, hEk, hEcost⟩ :=
    tighten ((((↑((counterItems text).map
        (fun p => (Node.leaf p.1 p.2, (cw p.1).length)))) :
        Multiset (Node × Nat)).map Prod.snd).sum)
      (((firstOccs text).map (fun c => (cw c).length)).sum)
      (↑((counterItems text).map (fun p => (Node.leaf p.1 p.2, (cw p.1).length))))
      (le_refl _) hne0 hble hkraft
  have hlow := merges_lower_bound hM (((firstOccs text).map (fun c => (cw c).length)).sum)
    E (hEfst.trans hfst) hwf hEble hEk
  have hcost0 : vecCost (↑((counterItems text).map
      (fun p => (Node.leaf p.1 p.2, (cw p.1).length)))) = codeCost cw text := by
    unfold vecCost codeCost
    rw [Multiset.map_coe, Multiset.sum_coe, List.map_map]
    apply congrArg List.sum
    apply List.map_congr_left
    intro p hp
    show wpl (Node.leaf p.1 p.2) + wt (Node.leaf p.1 p.2) * (cw p.1).length =
      p.2 * (cw p.1).length
    rw [wt_leaf, show wpl (Node.leaf p.1 p.2) = 0 from rfl]
    omega
  rw [← hcost0]
  exact le_trans hlow hEcost

/-! ### The cost attained by the generated code table -/

/-- Dropping depths from leafDepths recovers the leaves. -/
theorem leafDepths_leaves : ∀ (t : Node) (d : Nat),
    (leafDepths t d).map (fun q => (q.1, q.2.1)) = leaves t := by
  intro t
  induction t with
  | leaf c f => intro d; rfl
  | internal f l r ihl ihr =>
    intro d
    show (leafDepths l (d + 1) ++ leafDepths r (d + 1)).map _ = leaves l ++ leaves r
    rw [List.map_append, ihl, ihr]

/-- Summing frequency times depth over leafDepths computes the weighted
path length (plus the weight shifted by the starting depth). -/
theorem leafDepths_wpl : ∀ (t : Node) (d : Nat),
    ((leafDepths t d).map (fun q => q.2.1 * q.2.2)).sum = wpl t + wt t * d := by
  intro t
  induction t with
  | leaf c f =>
    intro d
    show ([(c, f, d)].map (fun q => q.2.1 * q.2.2)).sum = 0 + wt (Node.leaf c f) * d
    rw [wt_leaf]
    simp
  | internal f l r ihl ihr =>
    intro d
    show ((leafDepths l (d + 1) ++ leafDepths r (d + 1)).map _).sum =
      (wpl l + wpl r + wt l + wt r) + wt (Node.internal f l r) * d
    rw [List.map_append, List.sum_append, ihl, ihr, wt_internal]
    ring

/-- The code lengths produced by codeList are exactly the leaf depths. -/
theorem codeList_lengths : ∀ (t : Node) (pre : List Char),
    (↑((codeList t pre).map (fun q => (q.1, q.2.length))) : Multiset (Char × Nat)) =
    ↑((leafDepths t pre.length).map (fun q => (q.1, q.2.2))) := by
  intro t
  induction t with
  | leaf c f => intro pre; rfl
  | internal f l r ihl ihr =>
    intro pre
    show (↑((codeList r (pre ++ ['1']) ++ codeList l (pre ++ ['0'])).map
        (fun q => (q.1, q.2.length))) : Multiset (Char × Nat)) =
      ↑((leafDepths l (pre.length + 1) ++ leafDepths r (pre.length + 1)).map
        (fun q => (q.1, q.2.2)))
    rw [List.map_append, List.map_append, ← Multiset.coe_add, ← Multiset.coe_add]
    rw [ihr (pre ++ ['1']), ihl (pre ++ ['0'])]
    have hl1 : (pre ++ ['1']).length = pre.length + 1 := by simp
    have hl0 : (pre ++ ['0']).length = pre.length + 1 := by simp
    rw [hl1, hl0]
    exact add_comm _ _

/-- On a tree with distinct leaf characters, codeOf returns the codeList
entry of the character. -/
theorem codeOf_lookup {t : Node} (hnd : (leafChars t).Nodup) {c : Char} {p : List Char}
    (hm : (c, p) ∈ codeList t []) : codeOf t c = p := by
  unfold codeOf
  rw [generate_codes_codes, show initState.codes = [] from rfl, List.append_nil]
  have hk : ((codeList t []).map Prod.fst).Nodup := by
    rw [codeList_keys]
    exact List.nodup_reverse.mpr hnd
  rw [lookup_of_mem_nodup hk hm]
  rfl

/-- On a tree with distinct leaf characters, the generated code of each
leaf has length equal to the leaf's depth. -/
theorem codeOf_length {t : Node} (hnd : (leafChars t).Nodup) :
    ∀ q ∈ leafDepths t 0, (codeOf t q.1).length = q.2.2 := by
  intro q hq
  have h1 : (q.1, q.2.2) ∈ (leafDepths t 0).map (fun r => (r.1, r.2.2)) :=
    List.mem_map_of_mem _ hq
  have h2 : (q.1, q.2.2) ∈ (codeList t []).map (fun r => (r.1, r.2.length)) := by
    have hms : (↑((codeList t []).map (fun r => (r.1, r.2.length))) :
        Multiset (Char × Nat)) = ↑((leafDepths t 0).map (fun r => (r.1, r.2.2))) :=
      codeList_lengths t []
    have hmem : (q.1, q.2.2) ∈
        (↑((leafDepths t 0).map (fun r => (r.1, r.2.2))) : Multiset (Char × Nat)) :=
      Multiset.mem_coe.mpr h1
    rw [← hms] at hmem
    exact Multiset.mem_coe.mp hmem
  obtain ⟨r, hr, hre⟩ := List.mem_map.mp h2
  have hc : r.1 = q.1 := congrArg Prod.fst hre
  have hl : r.2.length = q.2.2 := congrArg Prod.snd hre
  have hcode : codeOf t q.1 = r.2 := by
    rw [← hc]
    exact codeOf_lookup hnd (show (r.1, r.2) ∈ codeList t [] from hr)
  rw [hcode, hl]

/-- All characters in generated codes are '0' or '1'. -/
theorem codeList_binary : ∀ (t : Node) (pre : List Char),
    (∀ x ∈ pre, x = '0' ∨ x = '1') →
    ∀ {c : Char} {p : List Char}, (c, p) ∈ codeList t pre →
    ∀ x ∈ p, x = '0' ∨ x = '1' := by
  intro t
  induction t with
  | leaf c0 f =>
    intro pre hpre c p hm x hx
    have hm2 : (c, p) ∈ [(c0, pre)] := hm
    rw [List.mem_singleton] at hm2
    have hp : p = pre := congrArg Prod.snd hm2
    exact hpre x (hp ▸ hx)
  | internal f l r ihl ihr =>
    intro pre hpre c p hm x hx
    have hm2 : (c, p) ∈ codeList r (pre ++ ['1']) ++ codeList l (pre ++ ['0']) := hm
    have hext : ∀ (b : Char), (b = '0' ∨ b = '1') →
        ∀ x2 ∈ pre ++ [b], x2 = '0' ∨ x2 = '1' := by
      intro b hb x2 hx2
      rcases List.mem_append.mp hx2 with hh | hh
      · exact hpre x2 hh
      · rw [List.mem_singleton] at hh
        rw [hh]
        exact hb
    rcases List.mem_append.mp hm2 with hh | hh
    · exact ihr (pre ++ ['1']) (hext '1' (Or.inr rfl)) hh x hx
    · exact ihl (pre ++ ['0']) (hext '0' (Or.inl rfl)) hh x hx

/-- Every symbol of the text owns the codeList entry (c, codeOf t c). -/
theorem codeOf_entry {text : List Char} {t : Node} (h : build_tree text = .ok t)
    {c : Char} (hc : c ∈ firstOccs text) : (c, codeOf t c) ∈ codeList t [] := by
  have hlc : c ∈ leafChars t := by
    have hcc := build_tree_leafChars h
    have h2 : c ∈ (↑(leafChars t) : Multiset Char) := by
      rw [hcc]
      exact Multiset.mem_coe.mpr hc
    exact Multiset.mem_coe.mp h2
  have hk := mem_codeList_keys hlc
  obtain ⟨v, hv⟩ := lookup_isSome hk
  have hmem := lookup_mem hv
  have hcv : codeOf t c = v := by
    unfold codeOf
    rw [generate_codes_codes, show initState.codes = [] from rfl, List.append_nil, hv]
    rfl
  rw [hcv]
  exact hmem

/-- The generated code table is itself a binary prefix code in the sense
of the spec. -/
theorem spec_code_codeOf {text : List Char} {t : Node} (h : build_tree text = .ok t) :
    SpecBinaryPrefixCode (codeOf t) text := by
  constructor
  · intro c hc x hx
    exact codeList_binary t [] (by intro x2 hx2; simp at hx2) (codeOf_entry h hc) x hx
  · intro c1 h1 c2 h2 hne
    exact codeList_prefix_free t (codeOf_entry h h1) (codeOf_entry h h2) hne

/-- The cost of the generated code table equals the weighted path length
of the built tree. -/
theorem codeCost_codeOf {text : List Char} {t : Node} (h : build_tree text = .ok t) :
    codeCost (codeOf t) text = wpl t := by
  have hnd := build_tree_leafChars_nodup h
  have hleaves := build_tree_leaves h
  unfold codeCost
  have hms : (↑((counterItems text).map (fun p => p.2 * (codeOf t p.1).length)) :
      Multiset Nat) = ↑((leaves t).map (fun p => p.2 * (codeOf t p.1).length)) := by
    rw [← Multiset.map_coe, ← Multiset.map_coe, ← hleaves]
  have hsum : ((counterItems text).map (fun p => p.2 * (codeOf t p.1).length)).sum =
      ((leaves t).map (fun p => p.2 * (codeOf t p.1).length)).sum := by
    have hc := congrArg Multiset.sum hms
    rw [Multiset.sum_coe, Multiset.sum_coe] at hc
    exact hc
  rw [hsum, ← leafDepths_leaves t 0, List.map_map]
  have hpt : ∀ q ∈ leafDepths t 0,
      ((fun p : Char × Nat => p.2 * (codeOf t p.1).length) ∘
        (fun q : Char × Nat × Nat => (q.1, q.2.1))) q =
      (fun q : Char × Nat × Nat => q.2.1 * q.2.2) q := by
    intro q hq
    show q.2.1 * (codeOf t q.1).length = q.2.1 * q.2.2
    rw [codeOf_length hnd q hq]
  rw [List.map_congr_left hpt, leafDepths_wpl]
  simp

/-- C7: for every text on which build_tree succeeds, the generated code
table is a binary prefix code for the text's symbol distribution, its cost
(the sum over symbols of frequency times code length) equals the weighted
sum of leaf depths of the built tree, and this cost is the minimum
achievable by any binary prefix code for that distribution. -/
theorem c7_optimality (text : List Char) (t : Node) (h : build_tree text = .ok t) :
    SpecBinaryPrefixCode (codeOf t) text ∧
    codeCost (codeOf t) text = wpl t ∧
    ∀ cw : Char → List Char, SpecBinaryPrefixCode cw text →
      codeCost (codeOf t) text ≤ codeCost cw text := by
  refine ⟨spec_code_codeOf h, codeCost_codeOf h, ?_⟩
  intro cw hcw
  rw [codeCost_codeOf h]
  exact huffman_lower_bound h hcw

/-- C7 (witness at the concrete input "ab", with the concrete competitor
prefix code a ↦ "0", b ↦ "10" of strictly larger cost). -/
theorem c7_witness :
    build_tree ['a', 'b'] = .ok (Node.internal 2 (Node.leaf 'b' 1) (Node.leaf 'a' 1)) ∧
    SpecBinaryPrefixCode (fun c => if c = 'a' then ['0'] else ['1', '0']) ['a', 'b'] ∧
    codeCost (codeOf (Node.internal 2 (Node.leaf 'b' 1) (Node.leaf 'a' 1))) ['a', 'b'] ≤
      codeCost (fun c => if c = 'a' then ['0'] else ['1', '0']) ['a', 'b'] :=
  ⟨rfl, ⟨by decide, by decide⟩,
    (c7_optimality ['a', 'b'] (Node.internal 2 (Node.leaf 'b' 1) (Node.leaf 'a' 1))
      rfl).2.2 _ ⟨by decide, by decide⟩⟩

/-- C10: the (bitstring, tree) pair returned by encode on an instance with
arbitrary prior state equals the pair returned on a fresh instance:
generate_codes overwrites the code of every symbol in the current tree,
and the join reads only those entries. -/
theorem c10_history_independent (st : HState) (text : List Char) :
    (encode st text).1 = (encode initState text).1 :=
  encode_fst_state_irrelevant st text

end Huffman
